import Mathlib

/-!
Verification of the `PostGraph` correlation-graph core
(`src/analysis/post_graph.py` of the OSINTProject repository).

Shallow embedding conventions:
* A Python `dict` is embedded as an insertion-ordered association list
  `List (String × α)`: assignment to a present key replaces the value in
  place (keeping the key's position), assignment to an absent key appends
  at the end, deletion removes the entry — exactly CPython's ordered-dict
  semantics, which drive every iteration order the proofs rely on.
* A Python `set` of strings is embedded as a duplicate-free `List String`.
  CPython leaves set iteration order unspecified; this embedding fixes it
  deterministically to first-insertion order.  Every theorem below that
  talks about the *contents* of a set states set-membership facts only, so
  no result depends on that determinization.
* Machine integers are `Int` (Python ints are unbounded).
-/

/-- The post data model (`src/models/post.py`, class `OSINTPost`).
`date` is a `datetime` in the source; it is opaque payload to `PostGraph`
(never read, only stored and returned), so it is carried here as an opaque
string token.  `PostGraph` itself reads only `post_id` and
`matched_keywords`. -/
structure OSINTPost where
  post_id : String
  date : String
  username : String
  text : String
  source : String
  url : String
  matched_keywords : List String
  categories : List String
deriving DecidableEq, Repr

/-- Shorthand used by the concrete test posts: only `post_id` and
`matched_keywords` matter to the graph, the payload fields are blank. -/
def mkPost (id : String) (kws : List String) : OSINTPost :=
  ⟨id, "", "", "", "", "", kws, []⟩

/-- Python `str.lower()`: lowercase every character (`String.toLower` in
the standard library is the same character map, but its `mapAux`
recursion is opaque to kernel reduction, so the list-map form is used to
keep every definition evaluable on concrete inputs). -/
def strLower (s : String) : String :=
  String.mk (s.data.map Char.toLower)

/-- A Python `dict` with string keys: insertion-ordered association list. -/
abbrev Dict (α : Type) := List (String × α)

/-- Python `d[k]` / `d.get(k)`: value at the first (and, with unique keys,
only) occurrence of `k`. -/
def dGet {α : Type} : Dict α → String → Option α
  | [], _ => none
  | e :: rest, k => if e.1 = k then some e.2 else dGet rest k

/-- Python `d.get(k, v₀)`. -/
def dGetD {α : Type} (d : Dict α) (k : String) (v₀ : α) : α :=
  (dGet d k).getD v₀

/-- Python `d[k] = v`: replace in place if `k` is present (keeping its
position), append at the end otherwise. -/
def dSet {α : Type} : Dict α → String → α → Dict α
  | [], k, v => [(k, v)]
  | e :: rest, k, v => if e.1 = k then (k, v) :: rest else e :: dSet rest k v

/-- Python `del d[k]` / `d.pop(k, None)`: drop the entry for `k`. -/
def dErase {α : Type} (d : Dict α) (k : String) : Dict α :=
  d.filter (fun e => decide (e.1 ≠ k))

/-- Python `list(d)` / iteration order of a dict: its keys in order. -/
def dKeys {α : Type} (d : Dict α) : List String :=
  d.map Prod.fst

/-- Python `s.add(x)` on a set, determinized to append on fresh elements. -/
def sInsert (s : List String) (x : String) : List String :=
  if x ∈ s then s else s ++ [x]

/-- Python `set(iterable)`: deduplication keeping first occurrences. -/
def sOfList (l : List String) : List String :=
  l.foldl sInsert []

/-- The normalized keyword set a post contributes to the graph:
`set(kw.lower() for kw in post.matched_keywords)` (used identically in
`add_post` and `remove_post`). -/
def kwSet (post : OSINTPost) : List String :=
  sOfList (post.matched_keywords.map strLower)

/-- Intersection of two embedded sets, as the sub-list of the first. -/
def interList (xs ys : List String) : List String :=
  xs.filter (fun k => decide (k ∈ ys))

/-- An undirected edge between two posts sharing keywords
(`post_graph.py`, dataclass `Edge`). -/
structure Edge where
  post_id_a : String
  post_id_b : String
  shared_keywords : List String
deriving DecidableEq, Repr

/-- `Edge.weight` property: `len(self.shared_keywords)`. -/
def Edge.weight (e : Edge) : Nat :=
  e.shared_keywords.length

/-- The graph state (`post_graph.py`, class `PostGraph`):
threshold `min_shared_keywords`, node table `_nodes`, adjacency `_adj`
(post id → neighbor id → Edge) and the inverted index `_keyword_index`
(keyword → set of post ids). -/
structure PostGraph where
  min_shared_keywords : Int
  nodes : Dict OSINTPost
  adj : Dict (Dict Edge)
  keyword_index : Dict (List String)
deriving DecidableEq, Repr

/-- `PostGraph.__init__(min_shared_keywords)`. -/
def PostGraph.empty (t : Int) : PostGraph :=
  ⟨t, [], [], []⟩

/-- The stored edge from `a` to `b`, i.e. `self._adj.get(a, {}).get(b)`. -/
def getEdge (g : PostGraph) (a b : String) : Option Edge :=
  dGet (dGetD g.adj a []) b

/-- The `candidate_counts` accumulation of `add_post`: for each keyword of
the incoming post, walk its postings list (looked up in the index *before*
the post registers itself) and collect the shared keywords per candidate
id. -/
def ccOf (ki : Dict (List String)) (kws : List String) : Dict (List String) :=
  kws.foldl (fun cc kw =>
    (dGetD ki kw []).foldl (fun cc other_id =>
      dSet cc other_id (sInsert (dGetD cc other_id []) kw)) cc) []

/-- One iteration of the edge-creation loop of `add_post`: if the shared
set reaches the threshold, store the edge in both adjacency slots
(`self._adj[pid][other] = edge`; `self._adj.setdefault(other, {})[pid] =
edge`) and bump the counter.  The direct subscript on `pid` is embedded
through `dGetD`; the key is guaranteed present because the `setdefault`
that opens `add_post` inserted it. -/
def edgeStep (pid : String) (t : Int) (st : Dict (Dict Edge) × Nat)
    (entry : String × List String) : Dict (Dict Edge) × Nat :=
  if t ≤ (entry.2.length : Int) then
    let edge : Edge := ⟨pid, entry.1, entry.2⟩
    let a1 := dSet st.1 pid (dSet (dGetD st.1 pid []) entry.1 edge)
    let a2 := dSet a1 entry.1 (dSet (dGetD a1 entry.1 []) pid edge)
    (a2, st.2 + 1)
  else st

/-- The final index update of `add_post`: register `pid` under each of the
post's keywords. -/
def kiAdd (pid : String) (kws : List String) (ki : Dict (List String)) :
    Dict (List String) :=
  kws.foldl (fun ki kw => dSet ki kw (sInsert (dGetD ki kw []) pid)) ki

/-- `PostGraph.add_post(post) -> int`, translated line by line (the three
loops are the named functions above).  Returns the new state and the
number of edges created. -/
def PostGraph.add_post (g : PostGraph) (post : OSINTPost) : PostGraph × Nat :=
  if (dGet g.nodes post.post_id).isSome then (g, 0)
  else
    let nodes1 := dSet g.nodes post.post_id post
    let adj1 := if (dGet g.adj post.post_id).isSome then g.adj
                else dSet g.adj post.post_id []
    let candidate_counts := ccOf g.keyword_index (kwSet post)
    let r := candidate_counts.foldl
      (edgeStep post.post_id g.min_shared_keywords) (adj1, 0)
    (⟨g.min_shared_keywords, nodes1, r.1,
      kiAdd post.post_id (kwSet post) g.keyword_index⟩, r.2)

/-- The stats dict returned by `PostGraph.add_posts`. -/
structure AddStats where
  nodes_added : Nat
  edges_created : Nat
deriving DecidableEq, Repr

/-- One iteration of the `add_posts` loop: skip an id already present,
otherwise `add_post` it and accumulate the stats. -/
def addPostsStep (st : PostGraph × AddStats) (post : OSINTPost) :
    PostGraph × AddStats :=
  if (dGet st.1.nodes post.post_id).isSome then st
  else
    let r := st.1.add_post post
    (r.1, ⟨st.2.nodes_added + 1, st.2.edges_created + r.2⟩)

/-- `PostGraph.add_posts(posts) -> dict`: batch add with the
`if post.post_id not in self._nodes` guard, accumulating the stats. -/
def PostGraph.add_posts (g : PostGraph) (posts : List OSINTPost) :
    PostGraph × AddStats :=
  posts.foldl addPostsStep (g, ⟨0, 0⟩)

/-- The index cleanup of `remove_post`: discard `pid` from the postings
list of each of its keywords, dropping a list that becomes empty. -/
def kiRemove (pid : String) (kws : List String) (ki : Dict (List String)) :
    Dict (List String) :=
  kws.foldl (fun ki kw =>
    match dGet ki kw with
    | none => ki
    | some ids =>
      let ids' := ids.filter (fun x => decide (x ≠ pid))
      if ids' = [] then dErase ki kw else dSet ki kw ids') ki

/-- The reciprocal-edge cleanup of `remove_post`:
`self._adj[neighbor_id].pop(post_id, None)` for every neighbor.  The raw
subscript `self._adj[neighbor_id]` would raise `KeyError` for a neighbor
without an adjacency slot — impossible in any state the class itself
produces, where adjacency keys mirror node keys — so that unreachable
branch is embedded as a no-op. -/
def adjDrop (pid : String) (nbs : List String) (adj : Dict (Dict Edge)) :
    Dict (Dict Edge) :=
  nbs.foldl (fun adj nb =>
    match dGet adj nb with
    | none => adj
    | some inner => dSet adj nb (dErase inner pid)) adj

/-- `PostGraph.remove_post(post_id)`, translated line by line (the two
loops are the named functions above). -/
def PostGraph.remove_post (g : PostGraph) (post_id : String) : PostGraph :=
  match dGet g.nodes post_id with
  | none => g
  | some post =>
    let ki := kiRemove post_id (kwSet post) g.keyword_index
    let adj1 := adjDrop post_id (dKeys (dGetD g.adj post_id [])) g.adj
    ⟨g.min_shared_keywords, dErase g.nodes post_id, dErase adj1 post_id, ki⟩

/-- `PostGraph.get_neighbors(post_id)`: the adjacency entry materialized
into `(post, edge)` pairs, skipping ids missing from the node table. -/
def PostGraph.get_neighbors (g : PostGraph) (post_id : String) :
    List (OSINTPost × Edge) :=
  (dGetD g.adj post_id []).filterMap (fun e =>
    (dGet g.nodes e.1).map (fun p => (p, e.2)))

/-- `PostGraph.get_shared_keywords(id_a, id_b)`: the stored edge's shared
set (a copy in Python — value semantics here), or the empty set.  An
`Edge` dataclass instance is always truthy, so `if edge:` is a
none-check. -/
def PostGraph.get_shared_keywords (g : PostGraph) (id_a id_b : String) :
    List String :=
  match getEdge g id_a id_b with
  | some edge => edge.shared_keywords
  | none => []

/-- Sum of the sizes of all adjacency entries (used as a BFS fuel bound). -/
def totalAdjSize (g : PostGraph) : Nat :=
  (g.adj.map (fun e => e.2.length)).sum

/-- Fuel bound for the BFS of `get_connected_components`.  The Python loop
terminates because every iteration pops one queue entry and entries are
pushed at most once per (node, incident-edge) pair plus the start node:
at most `1 + totalAdjSize` pushes per traversal, so this fuel is never
exhausted and the embedded loop runs to queue exhaustion exactly like the
source. -/
def ccFuel (g : PostGraph) : Nat :=
  1 + g.nodes.length + totalAdjSize g

/-- The `while queue:` BFS loop of `get_connected_components`: pop from
the front, skip visited ids, otherwise mark visited, record in the
component and push the not-yet-visited neighbors. -/
def bfsLoop (g : PostGraph) :
    Nat → List String → List String → List String → List String × List String
  | 0, visited, component, _ => (visited, component)
  | _ + 1, visited, component, [] => (visited, component)
  | fuel + 1, visited, component, current :: rest =>
    if current ∈ visited then bfsLoop g fuel visited component rest
    else
      let visited' := visited ++ [current]
      let neighbors := (dKeys (dGetD g.adj current [])).filter
        (fun nb => decide (nb ∉ visited'))
      bfsLoop g fuel visited' (component ++ [current]) (rest ++ neighbors)

/-- One iteration of the `for node_id in self._nodes:` loop of
`get_connected_components`, carrying `(visited, components)`. -/
def ccStep (g : PostGraph) (st : List String × List (List String))
    (node_id : String) : List String × List (List String) :=
  if node_id ∈ st.1 then st
  else
    let r := bfsLoop g (ccFuel g) st.1 [] [node_id]
    (r.1, st.2 ++ [r.2])

/-- Stable insertion into a list sorted descending by `key`: the new
element goes after every element whose key is ≥ its own. -/
def insertKeyDesc {α : Type} (key : α → Nat) (x : α) : List α → List α
  | [] => [x]
  | y :: ys => if key x ≤ key y then y :: insertKeyDesc key x ys
               else x :: y :: ys

/-- Python `list.sort(key=key, reverse=True)`: the stable descending sort
by `key` (CPython's sort is specified stable; stable insertion sort is
extensionally the same function). -/
def sortByKeyDesc {α : Type} (key : α → Nat) (l : List α) : List α :=
  l.foldl (fun acc x => insertKeyDesc key x acc) []

/-- `PostGraph.get_connected_components()`: BFS from each unvisited node
in node-insertion order, then `components.sort(key=len, reverse=True)`. -/
def PostGraph.get_connected_components (g : PostGraph) : List (List String) :=
  sortByKeyDesc List.length ((dKeys g.nodes).foldl (ccStep g) ([], [])).2

/-- The inner increment of `get_cluster_keywords`:
`counts[kw_lower] = counts.get(kw_lower, 0) + 1`. -/
def kwCount (counts : Dict Nat) (kw : String) : Dict Nat :=
  dSet counts (strLower kw) (dGetD counts (strLower kw) 0 + 1)

/-- One iteration of the `for pid in cluster_ids:` loop of
`get_cluster_keywords`: skip ids missing from the node table (an
`OSINTPost` dataclass instance is always truthy, so `if post:` is a
none-check), otherwise count every carried keyword, lowercased. -/
def ckStep (g : PostGraph) (counts : Dict Nat) (pid : String) : Dict Nat :=
  match dGet g.nodes pid with
  | none => counts
  | some post => post.matched_keywords.foldl kwCount counts

/-- `PostGraph.get_cluster_keywords(cluster_ids)`: keyword frequency over
the listed ids that are present. -/
def PostGraph.get_cluster_keywords (g : PostGraph) (cluster_ids : List String) :
    Dict Nat :=
  cluster_ids.foldl (ckStep g) []

/-- Python slicing `l[:limit]` for an arbitrary (possibly negative) int
limit: `l[:n]` with `n ≥ 0` keeps the first `n` elements, a negative `n`
keeps `max(0, len(l) + n)` elements. -/
def pySliceTo {α : Type} (l : List α) (limit : Int) : List α :=
  if 0 ≤ limit then l.take limit.toNat else l.take (l.length - (-limit).toNat)

/-- `PostGraph.get_most_connected(limit)`: `(post, degree)` pairs for every
adjacency entry whose id is in the node table, sorted stably by degree
descending, truncated by `items[:limit]`. -/
def PostGraph.get_most_connected (g : PostGraph) (limit : Int) :
    List (OSINTPost × Nat) :=
  let items := g.adj.filterMap (fun e =>
    (dGet g.nodes e.1).map (fun p => (p, e.2.length)))
  pySliceTo (sortByKeyDesc (fun pr => pr.2) items) limit

/-- Position of the first element of `keys` equal to `x` (the insertion
rank of a node id in the node table). -/
def posOf : List String → String → Nat
  | [], _ => 0
  | y :: ys, x => if y = x then 0 else posOf ys x + 1

/-- Position of the first element of `keys` that belongs to `c` (the
insertion rank of a component's earliest-inserted member). -/
def firstMemPos : List String → List String → Nat
  | [], _ => 0
  | y :: ys, c => if y ∈ c then 0 else firstMemPos ys c + 1

/-- The graph states reachable through the public mutation API, from a
fresh graph with an arbitrary (possibly non-positive) threshold. -/
inductive Reachable : PostGraph → Prop where
  | init : ∀ t : Int, Reachable (PostGraph.empty t)
  | add : ∀ g post, Reachable g → Reachable (g.add_post post).1
  | adds : ∀ g posts, Reachable g → Reachable (g.add_posts posts).1
  | remove : ∀ g pid, Reachable g → Reachable (g.remove_post pid)

/-- Well-formedness of a graph state: the invariants §3 of the spec plus
the bookkeeping facts (`nodes_ids`, key lists without duplicates, the
adjacency key list mirroring the node key list) that `add_post` and
`remove_post` maintain. -/
structure WF (g : PostGraph) : Prop where
  nodes_nodup : (dKeys g.nodes).Nodup
  adj_keys : dKeys g.adj = dKeys g.nodes
  ki_nodup : (dKeys g.keyword_index).Nodup
  nodes_ids : ∀ pid post, dGet g.nodes pid = some post → post.post_id = pid
  inner_nodup : ∀ pid inner, dGet g.adj pid = some inner → (dKeys inner).Nodup
  postings_nodup : ∀ kw ids, dGet g.keyword_index kw = some ids → ids.Nodup
  index_sound : ∀ kw ids, dGet g.keyword_index kw = some ids →
    ∀ id ∈ ids, ∃ post, dGet g.nodes id = some post ∧ kw ∈ kwSet post
  index_complete : ∀ pid post, dGet g.nodes pid = some post →
    ∀ kw ∈ kwSet post, pid ∈ dGetD g.keyword_index kw []
  edge_symm : ∀ a b, getEdge g a b = getEdge g b a
  edge_sound : ∀ a b e, getEdge g a b = some e →
    a ≠ b ∧ e.shared_keywords ≠ [] ∧ e.shared_keywords.Nodup ∧
    ∃ pa pb, dGet g.nodes a = some pa ∧ dGet g.nodes b = some pb ∧
      (∀ k, k ∈ e.shared_keywords ↔ k ∈ kwSet pa ∧ k ∈ kwSet pb) ∧
      g.min_shared_keywords ≤ (e.shared_keywords.length : Int)
  edge_complete : ∀ a b pa pb, a ≠ b → dGet g.nodes a = some pa →
    dGet g.nodes b = some pb → interList (kwSet pa) (kwSet pb) ≠ [] →
    g.min_shared_keywords ≤ ((interList (kwSet pa) (kwSet pb)).length : Int) →
    (getEdge g a b).isSome

/-- Invariant of the candidate accumulation: `cc` has no duplicate keys
and records, per candidate id, exactly the keywords `k` with `P k oid`. -/
def CCInv (cc : Dict (List String)) (P : String → String → Prop) : Prop :=
  (dKeys cc).Nodup ∧
  ∀ oid, (dGet cc oid = none → ∀ k, ¬ P k oid) ∧
    (∀ s, dGet cc oid = some s → s ≠ [] ∧ s.Nodup ∧ ∀ k, (k ∈ s ↔ P k oid))

/-- The edges `add_post` stores into the new node's adjacency slot: one
per qualifying candidate, in candidate order. -/
def qualEdges (pid : String) (t : Int) (entries : List (String × List String)) :
    Dict Edge :=
  (entries.filter (fun en => decide (t ≤ (en.2.length : Int)))).map
    (fun en => (en.1, (⟨pid, en.1, en.2⟩ : Edge)))

/-- The edge-creation fold exactly as it appears in `add_post` on the
fresh-node branch (candidate scan over the pre-insertion index, starting
from the adjacency with the new empty slot appended). -/
def addPostFold (g : PostGraph) (post : OSINTPost) : Dict (Dict Edge) × Nat :=
  (ccOf g.keyword_index (kwSet post)).foldl
    (edgeStep post.post_id g.min_shared_keywords) (dSet g.adj post.post_id [], 0)

/-- Batch insertion as §4.2 of the spec defines it: exactly N sequential
`AddDocument` calls in the given order, also returning the sum of the
values those calls return.  This is the reference side of the
refinement claim about `add_posts`. -/
def addDocumentsSeq (g : PostGraph) : List OSINTPost → PostGraph × Nat
  | [] => (g, 0)
  | p :: ps =>
    let r := g.add_post p
    let r' := addDocumentsSeq r.1 ps
    (r'.1, r.2 + r'.2)

/-! ### Association-list (Python dict) lemmas -/

theorem dKeys_nil {α : Type} : dKeys ([] : Dict α) = [] := rfl

theorem dKeys_cons {α : Type} (e : String × α) (d : Dict α) :
    dKeys (e :: d) = e.1 :: dKeys d := rfl

theorem dKeys_append {α : Type} (d₁ d₂ : Dict α) :
    dKeys (d₁ ++ d₂) = dKeys d₁ ++ dKeys d₂ := by
  simp [dKeys]

theorem dGet_dSet_self {α : Type} (d : Dict α) (k : String) (v : α) :
    dGet (dSet d k v) k = some v := by
  induction d with
  | nil => simp [dGet, dSet]
  | cons e rest ih =>
    obtain ⟨k₀, v₀⟩ := e
    by_cases h : k₀ = k
    · simp [dGet, dSet, h]
    · simp [dGet, dSet, h, ih]

theorem dGet_dSet_ne {α : Type} (d : Dict α) (k k' : String) (v : α)
    (h : k' ≠ k) : dGet (dSet d k v) k' = dGet d k' := by
  have h' : ¬(k = k') := fun hh => h hh.symm
  induction d with
  | nil => simp [dGet, dSet, h']
  | cons e rest ih =>
    obtain ⟨k₀, v₀⟩ := e
    by_cases he : k₀ = k
    · have he' : ¬(k₀ = k') := by rw [he]; exact h'
      simp [dGet, dSet, he, h', he']
    · by_cases he' : k₀ = k'
      · simp [dGet, dSet, he, he', h]
      · simp [dGet, dSet, he, he', ih]

theorem mem_dKeys {α : Type} (d : Dict α) (k : String) :
    k ∈ dKeys d ↔ ∃ v, (k, v) ∈ d := by
  induction d with
  | nil => simp [dKeys_nil]
  | cons e rest ih =>
    obtain ⟨k₀, v₀⟩ := e
    rw [dKeys_cons]
    constructor
    · intro h
      rcases List.mem_cons.mp h with h | h
      · exact ⟨v₀, by rw [h]; exact List.mem_cons_self _ _⟩
      · obtain ⟨v, hv⟩ := ih.mp h
        exact ⟨v, List.mem_cons_of_mem _ hv⟩
    · rintro ⟨v, hv⟩
      rcases List.mem_cons.mp hv with h | h
      · rw [show k₀ = k from (congrArg Prod.fst h).symm]
        exact List.mem_cons_self _ _
      · exact List.mem_cons_of_mem _ (ih.mpr ⟨v, h⟩)

theorem dGet_eq_none_iff {α : Type} (d : Dict α) (k : String) :
    dGet d k = none ↔ k ∉ dKeys d := by
  induction d with
  | nil => simp [dGet, dKeys_nil]
  | cons e rest ih =>
    obtain ⟨k₀, v₀⟩ := e
    by_cases h : k₀ = k
    · simp [dGet, dKeys_cons, h]
    · have h' : ¬(k = k₀) := fun hh => h hh.symm
      simp [dGet, dKeys_cons, h, h', ih]

theorem dGet_mem {α : Type} {d : Dict α} {k : String} {v : α}
    (h : dGet d k = some v) : (k, v) ∈ d := by
  induction d with
  | nil => simp [dGet] at h
  | cons e rest ih =>
    obtain ⟨k₀, v₀⟩ := e
    by_cases he : k₀ = k
    · rw [dGet, if_pos he] at h
      have : v₀ = v := by simpa using h
      rw [← he, ← this]
      exact List.mem_cons_self _ _
    · rw [dGet, if_neg he] at h
      exact List.mem_cons_of_mem _ (ih h)

theorem dGet_mem_keys {α : Type} {d : Dict α} {k : String} {v : α}
    (h : dGet d k = some v) : k ∈ dKeys d :=
  (mem_dKeys d k).mpr ⟨v, dGet_mem h⟩

theorem dGet_isSome_iff {α : Type} (d : Dict α) (k : String) :
    (dGet d k).isSome ↔ k ∈ dKeys d := by
  constructor
  · intro h
    cases hd : dGet d k with
    | none => rw [hd] at h; simp at h
    | some v => exact dGet_mem_keys hd
  · intro h
    cases hd : dGet d k with
    | none => exact absurd h ((dGet_eq_none_iff d k).mp hd)
    | some v => simp

theorem dGet_of_mem_of_nodup {α : Type} {d : Dict α} {k : String} {v : α}
    (hd : (dKeys d).Nodup) (h : (k, v) ∈ d) : dGet d k = some v := by
  induction d with
  | nil => simp at h
  | cons e rest ih =>
    obtain ⟨k₀, v₀⟩ := e
    rw [dKeys_cons, List.nodup_cons] at hd
    rcases List.mem_cons.mp h with h1 | h1
    · have hk : k₀ = k := (congrArg Prod.fst h1).symm
      have hv : v₀ = v := (congrArg Prod.snd h1).symm
      rw [dGet, if_pos hk, hv]
    · have hk : ¬(k₀ = k) := by
        intro he
        exact hd.1 (he ▸ (mem_dKeys rest k).mpr ⟨v, h1⟩)
      rw [dGet, if_neg hk]
      exact ih hd.2 h1

theorem dSet_of_not_mem {α : Type} {d : Dict α} {k : String} (v : α)
    (h : k ∉ dKeys d) : dSet d k v = d ++ [(k, v)] := by
  induction d with
  | nil => simp [dSet]
  | cons e rest ih =>
    obtain ⟨k₀, v₀⟩ := e
    rw [dKeys_cons] at h
    have h1 : ¬(k₀ = k) := fun hh => h (hh ▸ List.mem_cons_self _ _)
    have h2 : k ∉ dKeys rest := fun hh => h (List.mem_cons_of_mem _ hh)
    simp [dSet, h1, ih h2]

theorem dKeys_dSet_of_mem {α : Type} {d : Dict α} {k : String} (v : α)
    (h : k ∈ dKeys d) : dKeys (dSet d k v) = dKeys d := by
  induction d with
  | nil => simp [dKeys_nil] at h
  | cons e rest ih =>
    obtain ⟨k₀, v₀⟩ := e
    by_cases he : k₀ = k
    · simp [dSet, he, dKeys_cons]
    · rw [dKeys_cons] at h
      have h1 : k ∈ dKeys rest := by
        rcases List.mem_cons.mp h with h1 | h1
        · exact absurd h1.symm he
        · exact h1
      rw [dSet, if_neg he, dKeys_cons, dKeys_cons, ih h1]

theorem dKeys_dSet_of_not_mem {α : Type} {d : Dict α} {k : String} (v : α)
    (h : k ∉ dKeys d) : dKeys (dSet d k v) = dKeys d ++ [k] := by
  rw [dSet_of_not_mem v h, dKeys_append]
  rfl

theorem dKeys_dSet_nodup {α : Type} {d : Dict α} (k : String) (v : α)
    (h : (dKeys d).Nodup) : (dKeys (dSet d k v)).Nodup := by
  by_cases hm : k ∈ dKeys d
  · rw [dKeys_dSet_of_mem v hm]
    exact h
  · rw [dKeys_dSet_of_not_mem v hm]
    simp [List.nodup_append, h, hm]

theorem dGet_dErase_self {α : Type} (d : Dict α) (k : String) :
    dGet (dErase d k) k = none := by
  induction d with
  | nil => simp [dGet, dErase]
  | cons e rest ih =>
    obtain ⟨k₀, v₀⟩ := e
    by_cases h : k₀ = k
    · simpa [dErase, h] using ih
    · simpa [dErase, dGet, h] using ih

theorem dGet_dErase_ne {α : Type} (d : Dict α) (k k' : String)
    (h : k' ≠ k) : dGet (dErase d k) k' = dGet d k' := by
  induction d with
  | nil => simp [dGet, dErase]
  | cons e rest ih =>
    obtain ⟨k₀, v₀⟩ := e
    by_cases he : k₀ = k
    · have he' : ¬(k₀ = k') := by rw [he]; exact fun hh => h hh.symm
      rw [show dErase ((k₀, v₀) :: rest) k = dErase rest k by simp [dErase, he]]
      rw [ih, dGet, if_neg he']
    · rw [show dErase ((k₀, v₀) :: rest) k = (k₀, v₀) :: dErase rest k by
        simp [dErase, he]]
      by_cases he' : k₀ = k'
      · rw [dGet, if_pos he', dGet, if_pos he']
      · rw [dGet, if_neg he', dGet, if_neg he', ih]

theorem dKeys_dErase {α : Type} (d : Dict α) (k : String) :
    dKeys (dErase d k) = (dKeys d).filter (fun x => decide (x ≠ k)) := by
  induction d with
  | nil => simp [dKeys_nil, dErase]
  | cons e rest ih =>
    obtain ⟨k₀, v₀⟩ := e
    by_cases h : k₀ = k
    · simpa [dErase, dKeys_cons, List.filter_cons, h] using ih
    · simpa [dErase, dKeys_cons, List.filter_cons, h] using ih

theorem dKeys_dErase_nodup {α : Type} {d : Dict α} (k : String)
    (h : (dKeys d).Nodup) : (dKeys (dErase d k)).Nodup := by
  rw [dKeys_dErase]
  exact h.filter _

theorem dGet_append {α : Type} (d₁ d₂ : Dict α) (k : String) :
    dGet (d₁ ++ d₂) k =
      match dGet d₁ k with
      | some v => some v
      | none => dGet d₂ k := by
  induction d₁ with
  | nil => simp [dGet]
  | cons e rest ih =>
    obtain ⟨k₀, v₀⟩ := e
    by_cases h : k₀ = k
    · simp [dGet, h]
    · simp [dGet, h, ih]

/-! ### Embedded-set lemmas -/

theorem mem_sInsert (s : List String) (x y : String) :
    y ∈ sInsert s x ↔ y ∈ s ∨ y = x := by
  by_cases h : x ∈ s
  · rw [sInsert, if_pos h]
    constructor
    · exact Or.inl
    · rintro (hy | rfl)
      · exact hy
      · exact h
  · rw [sInsert, if_neg h]
    simp

theorem sInsert_nodup {s : List String} (x : String) (h : s.Nodup) :
    (sInsert s x).Nodup := by
  by_cases hm : x ∈ s
  · rw [sInsert, if_pos hm]
    exact h
  · rw [sInsert, if_neg hm]
    simp [List.nodup_append, h, hm]

theorem sInsert_ne_nil (s : List String) (x : String) : sInsert s x ≠ [] := by
  by_cases h : x ∈ s
  · rw [sInsert, if_pos h]
    intro he
    rw [he] at h
    simp at h
  · rw [sInsert, if_neg h]
    simp

theorem mem_sOfList_aux (l : List String) (x : String) :
    ∀ acc, x ∈ l.foldl sInsert acc ↔ x ∈ acc ∨ x ∈ l := by
  induction l with
  | nil => intro acc; simp
  | cons y ys ih =>
    intro acc
    rw [List.foldl_cons, ih, mem_sInsert]
    constructor
    · rintro (⟨h | h⟩ | h)
      · exact Or.inl h
      · exact Or.inr (by simp [h])
      · exact Or.inr (by simp [h])
    · rintro (h | h)
      · exact Or.inl (Or.inl h)
      · rcases List.mem_cons.mp h with h | h
        · exact Or.inl (Or.inr h)
        · exact Or.inr h

theorem mem_sOfList (l : List String) (x : String) :
    x ∈ sOfList l ↔ x ∈ l := by
  rw [sOfList, mem_sOfList_aux]
  simp

theorem sOfList_nodup (l : List String) : (sOfList l).Nodup := by
  have aux : ∀ (m acc : List String), acc.Nodup → (m.foldl sInsert acc).Nodup := by
    intro m
    induction m with
    | nil => intro acc h; simpa using h
    | cons y ys ih =>
      intro acc h
      exact ih _ (sInsert_nodup y h)
  exact aux l [] (by simp)

theorem kwSet_nodup (post : OSINTPost) : (kwSet post).Nodup :=
  sOfList_nodup _

theorem mem_kwSet (post : OSINTPost) (k : String) :
    k ∈ kwSet post ↔ ∃ w ∈ post.matched_keywords, strLower w = k := by
  rw [kwSet, mem_sOfList]
  simp [List.mem_map]

theorem mem_interList (xs ys : List String) (k : String) :
    k ∈ interList xs ys ↔ k ∈ xs ∧ k ∈ ys := by
  simp [interList]

theorem interList_nodup {xs : List String} (ys : List String)
    (h : xs.Nodup) : (interList xs ys).Nodup :=
  h.filter _

theorem length_eq_of_nodup_of_mem_iff {xs ys : List String}
    (hx : xs.Nodup) (hy : ys.Nodup) (h : ∀ k, k ∈ xs ↔ k ∈ ys) :
    xs.length = ys.length :=
  List.Perm.length_eq ((List.perm_ext_iff_of_nodup hx hy).mpr h)

/-! ### The graph well-formedness invariant -/

theorem wf_empty (t : Int) : WF (PostGraph.empty t) := by
  constructor <;> simp [PostGraph.empty, dKeys_nil, dGet, getEdge, dGetD]

/-- In a well-formed graph, an id carrying an edge slot toward `b` makes
`b` a current node. -/
theorem WF.inner_keys_nodup {g : PostGraph} (h : WF g) (a : String) :
    (dKeys (dGetD g.adj a [])).Nodup := by
  rcases ha : dGet g.adj a with _ | inner
  · simp [dGetD, ha, dKeys_nil]
  · simp only [dGetD, ha, Option.getD_some]
    exact h.inner_nodup a inner ha

theorem WF.edge_target_mem {g : PostGraph} (h : WF g) {a b : String}
    (hb : b ∈ dKeys (dGetD g.adj a [])) : b ∈ dKeys g.nodes := by
  obtain ⟨e, he⟩ := (mem_dKeys _ b).mp hb
  have hget : getEdge g a b = some e := dGet_of_mem_of_nodup (h.inner_keys_nodup a) he
  obtain ⟨-, -, -, pa, pb, -, hpb, -⟩ := h.edge_sound a b e hget
  exact dGet_mem_keys hpb

/-! ### Characterizing the candidate accumulation of `add_post` -/

theorem mem_dGetD_nil_iff (ki : Dict (List String)) (k : String) (x : String) :
    x ∈ dGetD ki k [] ↔ ∃ ids, dGet ki k = some ids ∧ x ∈ ids := by
  rcases h : dGet ki k with _ | ids
  · simp [dGetD, h]
  · simp [dGetD, h]

theorem ccInv_congr {cc : Dict (List String)}
    {P Q : String → String → Prop} (h : CCInv cc P)
    (hpq : ∀ k oid, P k oid ↔ Q k oid) : CCInv cc Q := by
  refine ⟨h.1, fun oid => ⟨fun hn k hq => (h.2 oid).1 hn k ((hpq k oid).mpr hq),
    fun s hs => ?_⟩⟩
  obtain ⟨h1, h2, h3⟩ := (h.2 oid).2 s hs
  exact ⟨h1, h2, fun k => (h3 k).trans (hpq k oid)⟩

theorem ccInv_inner (kw : String) :
    ∀ (ids : List String) (cc : Dict (List String))
      (P : String → String → Prop), CCInv cc P →
      CCInv (ids.foldl (fun cc oid =>
          dSet cc oid (sInsert (dGetD cc oid []) kw)) cc)
        (fun k oid => P k oid ∨ (k = kw ∧ oid ∈ ids)) := by
  intro ids
  induction ids with
  | nil =>
    intro cc P h
    exact ccInv_congr h (by simp)
  | cons oid₀ rest ih =>
    intro cc P h
    rw [List.foldl_cons]
    have hstep : CCInv (dSet cc oid₀ (sInsert (dGetD cc oid₀ []) kw))
        (fun k oid => P k oid ∨ (k = kw ∧ oid = oid₀)) := by
      refine ⟨dKeys_dSet_nodup _ _ h.1, fun oid => ?_⟩
      by_cases hoid : oid = oid₀
      · subst hoid
        rw [dGet_dSet_self]
        refine ⟨fun hn => by simp at hn, fun s hs => ?_⟩
        have hs' : s = sInsert (dGetD cc oid []) kw := by
          injection hs.symm
        subst hs'
        refine ⟨sInsert_ne_nil _ _, ?_, fun k => ?_⟩
        · rcases hb : dGet cc oid with _ | s₀
          · simp [dGetD, hb]
            exact sInsert_nodup _ (by simp)
          · simp only [dGetD, hb, Option.getD_some]
            exact sInsert_nodup _ ((h.2 oid).2 s₀ hb).2.1
        · rw [mem_sInsert]
          rcases hb : dGet cc oid with _ | s₀
          · simp [dGetD, hb]
            intro hk
            exact ((h.2 oid).1 hb k hk).elim
          · simp only [dGetD, hb, Option.getD_some]
            rw [((h.2 oid).2 s₀ hb).2.2 k]
            tauto
      · rw [dGet_dSet_ne _ _ _ _ hoid]
        refine ⟨fun hn k => ?_, fun s hs => ?_⟩
        · intro hk
          rcases hk with hk | hk
          · exact (h.2 oid).1 hn k hk
          · exact hoid hk.2
        · obtain ⟨h1, h2, h3⟩ := (h.2 oid).2 s hs
          exact ⟨h1, h2, fun k => by rw [h3 k]; tauto⟩
    have := ih _ _ hstep
    refine ccInv_congr this ?_
    intro k oid
    constructor
    · rintro ((hp | ⟨rfl, rfl⟩) | ⟨rfl, hm⟩)
      · exact Or.inl hp
      · exact Or.inr ⟨rfl, List.mem_cons_self _ _⟩
      · exact Or.inr ⟨rfl, List.mem_cons_of_mem _ hm⟩
    · rintro (hp | ⟨rfl, hm⟩)
      · exact Or.inl (Or.inl hp)
      · rcases List.mem_cons.mp hm with hm | hm
        · exact Or.inl (Or.inr ⟨rfl, hm⟩)
        · exact Or.inr ⟨rfl, hm⟩

theorem ccInv_outer (ki : Dict (List String)) :
    ∀ (kws : List String) (cc : Dict (List String))
      (P : String → String → Prop), CCInv cc P →
      CCInv (kws.foldl (fun cc kw =>
          (dGetD ki kw []).foldl (fun cc other_id =>
            dSet cc other_id (sInsert (dGetD cc other_id []) kw)) cc) cc)
        (fun k oid => P k oid ∨ (k ∈ kws ∧ oid ∈ dGetD ki k [])) := by
  intro kws
  induction kws with
  | nil =>
    intro cc P h
    exact ccInv_congr h (by simp)
  | cons kw₀ rest ih =>
    intro cc P h
    rw [List.foldl_cons]
    have h1 := ccInv_inner kw₀ (dGetD ki kw₀ []) cc P h
    have h1' : CCInv ((dGetD ki kw₀ []).foldl (fun cc oid =>
        dSet cc oid (sInsert (dGetD cc oid []) kw₀)) cc)
        (fun k oid => P k oid ∨ (k = kw₀ ∧ oid ∈ dGetD ki k [])) := by
      refine ccInv_congr h1 ?_
      intro k oid
      constructor
      · rintro (hp | ⟨rfl, hm⟩)
        · exact Or.inl hp
        · exact Or.inr ⟨rfl, hm⟩
      · rintro (hp | ⟨rfl, hm⟩)
        · exact Or.inl hp
        · exact Or.inr ⟨rfl, hm⟩
    have := ih _ _ h1'
    refine ccInv_congr this ?_
    intro k oid
    constructor
    · rintro ((hp | ⟨rfl, hm⟩) | ⟨hr, hm⟩)
      · exact Or.inl hp
      · exact Or.inr ⟨List.mem_cons_self _ _, hm⟩
      · exact Or.inr ⟨List.mem_cons_of_mem _ hr, hm⟩
    · rintro (hp | ⟨hm, hp⟩)
      · exact Or.inl (Or.inl hp)
      · rcases List.mem_cons.mp hm with hm | hm
        · exact Or.inl (Or.inr ⟨hm, hp⟩)
        · exact Or.inr ⟨hm, hp⟩

theorem ccOf_spec (ki : Dict (List String)) (kws : List String) :
    CCInv (ccOf ki kws) (fun k oid => k ∈ kws ∧ oid ∈ dGetD ki k []) := by
  have base : CCInv ([] : Dict (List String)) (fun _ _ => False) := by
    refine ⟨by simp [dKeys_nil], fun oid => ⟨fun _ k => not_false, fun s hs => ?_⟩⟩
    simp [dGet] at hs
  have := ccInv_outer ki kws [] _ base
  rw [ccOf]
  exact ccInv_congr this (by simp)

/-- In a well-formed graph, a recorded candidate is an existing node
(distinct from the incoming post, which is not yet indexed) whose
accumulated shared set is exactly the intersection of keyword sets. -/
theorem cc_entry_spec {g : PostGraph} (h : WF g) {post : OSINTPost}
    (hnew : dGet g.nodes post.post_id = none) {oid : String} {s : List String}
    (hs : dGet (ccOf g.keyword_index (kwSet post)) oid = some s) :
    ∃ q, dGet g.nodes oid = some q ∧ oid ≠ post.post_id ∧ s ≠ [] ∧
      s.Nodup ∧ (∀ k, k ∈ s ↔ k ∈ kwSet post ∧ k ∈ kwSet q) := by
  have hcc := ccOf_spec g.keyword_index (kwSet post)
  obtain ⟨hne, hnd, hmem⟩ := (hcc.2 oid).2 s hs
  obtain ⟨k₀, hk₀⟩ := List.exists_mem_of_ne_nil s hne
  obtain ⟨-, hk₀p⟩ := (hmem k₀).mp hk₀
  obtain ⟨ids₀, hids₀, hoid₀⟩ := (mem_dGetD_nil_iff _ _ _).mp hk₀p
  obtain ⟨q, hq, -⟩ := h.index_sound k₀ ids₀ hids₀ oid hoid₀
  have hoidne : oid ≠ post.post_id := by
    intro he
    rw [he, hnew] at hq
    exact Option.noConfusion hq
  refine ⟨q, hq, hoidne, hne, hnd, fun k => ?_⟩
  rw [hmem k]
  constructor
  · rintro ⟨hk1, hk2⟩
    obtain ⟨ids, hids, hoid⟩ := (mem_dGetD_nil_iff _ _ _).mp hk2
    obtain ⟨q', hq', hkq'⟩ := h.index_sound k ids hids oid hoid
    rw [hq'] at hq
    injection hq with hq
    exact ⟨hk1, hq ▸ hkq'⟩
  · rintro ⟨hk1, hk2⟩
    exact ⟨hk1, h.index_complete oid q hq k hk2⟩

/-- In a well-formed graph, every existing node sharing at least one
keyword with the incoming post shows up among the candidates, with the
full intersection as its shared set. -/
theorem cc_complete {g : PostGraph} (h : WF g) (post : OSINTPost)
    {oid : String} {q : OSINTPost} (hq : dGet g.nodes oid = some q)
    (hne : interList (kwSet post) (kwSet q) ≠ []) :
    ∃ s, dGet (ccOf g.keyword_index (kwSet post)) oid = some s := by
  have hcc := ccOf_spec g.keyword_index (kwSet post)
  obtain ⟨k₀, hk₀⟩ := List.exists_mem_of_ne_nil _ hne
  obtain ⟨hk₀1, hk₀2⟩ := (mem_interList _ _ _).mp hk₀
  rcases hgo : dGet (ccOf g.keyword_index (kwSet post)) oid with _ | s
  · exfalso
    exact (hcc.2 oid).1 hgo k₀ ⟨hk₀1, h.index_complete oid q hq k₀ hk₀2⟩
  · exact ⟨s, rfl⟩

/-! ### Characterizing the index updates -/

theorem kiAdd_get (pid : String) :
    ∀ (kws : List String), kws.Nodup → ∀ (ki : Dict (List String)) (kw : String),
      dGet (kiAdd pid kws ki) kw =
        if kw ∈ kws then some (sInsert (dGetD ki kw []) pid) else dGet ki kw := by
  intro kws
  induction kws with
  | nil =>
    intro _ ki kw
    simp [kiAdd]
  | cons kw₀ rest ih =>
    intro hnd ki kw
    rw [List.nodup_cons] at hnd
    rw [kiAdd, List.foldl_cons]
    have step : dGet (kiAdd pid rest (dSet ki kw₀ (sInsert (dGetD ki kw₀ []) pid))) kw =
        if kw ∈ rest then
          some (sInsert (dGetD (dSet ki kw₀ (sInsert (dGetD ki kw₀ []) pid)) kw []) pid)
        else dGet (dSet ki kw₀ (sInsert (dGetD ki kw₀ []) pid)) kw := ih hnd.2 _ kw
    rw [show (List.foldl (fun ki kw => dSet ki kw (sInsert (dGetD ki kw []) pid))
      (dSet ki kw₀ (sInsert (dGetD ki kw₀ []) pid)) rest) =
      kiAdd pid rest (dSet ki kw₀ (sInsert (dGetD ki kw₀ []) pid)) from rfl]
    rw [step]
    by_cases hkw : kw ∈ rest
    · have hne : kw ≠ kw₀ := fun he => hnd.1 (he ▸ hkw)
      rw [if_pos hkw, if_pos (List.mem_cons_of_mem _ hkw)]
      rw [dGetD, dGet_dSet_ne _ _ _ _ hne]
      rfl
    · rw [if_neg hkw]
      by_cases he : kw = kw₀
      · subst he
        rw [dGet_dSet_self, if_pos (List.mem_cons_self _ _)]
      · rw [dGet_dSet_ne _ _ _ _ he, if_neg (by simp [he, hkw])]

theorem kiAdd_keys_nodup (pid : String) :
    ∀ (kws : List String) (ki : Dict (List String)),
      (dKeys ki).Nodup → (dKeys (kiAdd pid kws ki)).Nodup := by
  intro kws
  induction kws with
  | nil => intro ki h; simpa [kiAdd] using h
  | cons kw₀ rest ih =>
    intro ki h
    rw [kiAdd, List.foldl_cons]
    exact ih _ (dKeys_dSet_nodup _ _ h)

theorem kiRemove_get (pid : String) :
    ∀ (kws : List String), kws.Nodup → ∀ (ki : Dict (List String)) (kw : String),
      dGet (kiRemove pid kws ki) kw =
        if kw ∈ kws then
          match dGet ki kw with
          | none => none
          | some ids =>
            let ids' := ids.filter (fun x => decide (x ≠ pid))
            if ids' = [] then none else some ids'
        else dGet ki kw := by
  intro kws
  induction kws with
  | nil =>
    intro _ ki kw
    simp [kiRemove]
  | cons kw₀ rest ih =>
    intro hnd ki kw
    rw [List.nodup_cons] at hnd
    rw [kiRemove, List.foldl_cons]
    set ki₁ := (match dGet ki kw₀ with
      | none => ki
      | some ids =>
        let ids' := ids.filter (fun x => decide (x ≠ pid))
        if ids' = [] then dErase ki kw₀ else dSet ki kw₀ ids') with hki₁
    have hstep : (List.foldl (fun ki kw =>
        match dGet ki kw with
        | none => ki
        | some ids =>
          let ids' := ids.filter (fun x => decide (x ≠ pid))
          if ids' = [] then dErase ki kw else dSet ki kw ids') ki₁ rest) =
        kiRemove pid rest ki₁ := rfl
    have hki₁get : ∀ kw', kw' ≠ kw₀ → dGet ki₁ kw' = dGet ki kw' := by
      intro kw' hne
      rw [hki₁]
      rcases dGet ki kw₀ with _ | ids
      · rfl
      · simp only
        by_cases hnil : ids.filter (fun x => decide (x ≠ pid)) = []
        · rw [if_pos hnil]
          exact dGet_dErase_ne _ _ _ hne
        · rw [if_neg hnil]
          exact dGet_dSet_ne _ _ _ _ hne
    rw [hstep, ih hnd.2 _ kw]
    by_cases hkw : kw ∈ rest
    · have hne : kw ≠ kw₀ := fun he => hnd.1 (he ▸ hkw)
      rw [if_pos hkw, if_pos (List.mem_cons_of_mem _ hkw), hki₁get kw hne]
    · rw [if_neg hkw]
      by_cases he : kw = kw₀
      · subst he
        rw [if_pos (List.mem_cons_self _ _), hki₁]
        rcases hg : dGet ki kw with _ | ids
        · rw [hg]
        · simp only [hg]
          by_cases hnil : ids.filter (fun x => decide (x ≠ pid)) = []
          · simp only [hnil, if_pos rfl]
            exact dGet_dErase_self _ _
          · simp only [hnil, if_neg hnil]
            exact dGet_dSet_self _ _ _
      · rw [hki₁get kw he, if_neg (by simp [he, hkw])]

theorem kiRemove_keys_nodup (pid : String) :
    ∀ (kws : List String) (ki : Dict (List String)),
      (dKeys ki).Nodup → (dKeys (kiRemove pid kws ki)).Nodup := by
  intro kws
  induction kws with
  | nil => intro ki h; simpa [kiRemove] using h
  | cons kw₀ rest ih =>
    intro ki h
    rw [kiRemove, List.foldl_cons]
    refine ih _ ?_
    rcases dGet ki kw₀ with _ | ids
    · exact h
    · simp only
      by_cases hnil : ids.filter (fun x => decide (x ≠ pid)) = []
      · rw [if_pos hnil]
        exact dKeys_dErase_nodup _ h
      · rw [if_neg hnil]
        exact dKeys_dSet_nodup _ _ h

/-! ### Characterizing the edge-creation loop of `add_post` -/

theorem dGetD_eq_some {α : Type} {d : Dict α} {k : String} (v₀ : α)
    (h : k ∈ dKeys d) : dGet d k = some (dGetD d k v₀) := by
  cases hd : dGet d k with
  | none => exact absurd h ((dGet_eq_none_iff d k).mp hd)
  | some v => rw [dGetD, hd]; rfl

theorem dGet_filter_none {β : Type} (p : String × β → Bool)
    {l : List (String × β)} {k : String} (h : dGet l k = none) :
    dGet (l.filter p) k = none := by
  rw [dGet_eq_none_iff] at h ⊢
  intro hm
  exact h (List.Sublist.mem hm ((List.filter_sublist l).map Prod.fst))

theorem dGet_filter {β : Type} (p : String × β → Bool) :
    ∀ (l : List (String × β)), (dKeys l).Nodup → ∀ k,
      dGet (l.filter p) k =
        match dGet l k with
        | some v => if p (k, v) then some v else none
        | none => none := by
  intro l
  induction l with
  | nil => intro _ k; simp [dGet]
  | cons e rest ih =>
    intro hnd k
    obtain ⟨k₀, v₀⟩ := e
    rw [dKeys_cons, List.nodup_cons] at hnd
    by_cases he : k₀ = k
    · subst he
      rw [show dGet ((k₀, v₀) :: rest) k₀ = some v₀ by rw [dGet, if_pos rfl]]
      have hrest : dGet rest k₀ = none :=
        (dGet_eq_none_iff rest k₀).mpr hnd.1
      by_cases hp : p (k₀, v₀)
      · rw [List.filter_cons_of_pos hp, dGet, if_pos rfl]
        simp [hp]
      · rw [List.filter_cons_of_neg (by simpa using hp), dGet_filter_none p hrest]
        simp [hp]
    · rw [show dGet ((k₀, v₀) :: rest) k = dGet rest k by rw [dGet, if_neg he]]
      by_cases hp : p (k₀, v₀)
      · rw [List.filter_cons_of_pos hp, dGet, if_neg he]
        exact ih hnd.2 k
      · rw [List.filter_cons_of_neg (by simpa using hp)]
        exact ih hnd.2 k

theorem dGet_map_entry {β γ : Type} (F : String → β → γ) :
    ∀ (l : List (String × β)) (k : String),
      dGet (l.map (fun en => (en.1, F en.1 en.2))) k =
        (dGet l k).map (fun v => F k v) := by
  intro l
  induction l with
  | nil => intro k; simp [dGet]
  | cons e rest ih =>
    intro k
    obtain ⟨k₀, v₀⟩ := e
    by_cases he : k₀ = k
    · subst he
      rw [List.map_cons, dGet, if_pos rfl, dGet, if_pos rfl]
      rfl
    · rw [List.map_cons, dGet, if_neg he, dGet, if_neg he]
      exact ih k

theorem dKeys_map_entry {β γ : Type} (F : String → β → γ)
    (l : List (String × β)) :
    dKeys (l.map (fun en => (en.1, F en.1 en.2))) = dKeys l := by
  induction l with
  | nil => rfl
  | cons e rest ih => simp [dKeys_cons, ih]

theorem qualEdges_get (pid : String) (t : Int)
    {entries : List (String × List String)} (hnd : (dKeys entries).Nodup)
    (b : String) :
    dGet (qualEdges pid t entries) b =
      match dGet entries b with
      | some s => if t ≤ (s.length : Int) then some ⟨pid, b, s⟩ else none
      | none => none := by
  rw [qualEdges]
  rw [show (fun (en : String × List String) => (en.1, (⟨pid, en.1, en.2⟩ : Edge)))
    = (fun en => (en.1, (fun a s => (⟨pid, a, s⟩ : Edge)) en.1 en.2)) from rfl]
  rw [dGet_map_entry]
  rw [dGet_filter _ entries hnd b]
  rcases dGet entries b with _ | s
  · rfl
  · by_cases hq : t ≤ (s.length : Int)
    · simp [hq]
    · simp [hq]

theorem qualEdges_keys_nodup (pid : String) (t : Int)
    {entries : List (String × List String)} (hnd : (dKeys entries).Nodup) :
    (dKeys (qualEdges pid t entries)).Nodup := by
  rw [qualEdges]
  rw [show (fun (en : String × List String) => (en.1, (⟨pid, en.1, en.2⟩ : Edge)))
    = (fun en => (en.1, (fun a s => (⟨pid, a, s⟩ : Edge)) en.1 en.2)) from rfl]
  rw [dKeys_map_entry]
  exact hnd.sublist ((List.filter_sublist entries).map Prod.fst)

theorem edgesFold_spec (pid : String) (t : Int) :
    ∀ (entries : List (String × List String)) (adj0 : Dict (Dict Edge)) (c0 : Nat),
      (dKeys entries).Nodup →
      pid ∉ dKeys entries →
      (∀ en ∈ entries, en.1 ∈ dKeys adj0) →
      pid ∈ dKeys adj0 →
      (∀ en ∈ entries, pid ∉ dKeys (dGetD adj0 en.1 [])) →
      (∀ en ∈ entries, en.1 ∉ dKeys (dGetD adj0 pid [])) →
      dGet (entries.foldl (edgeStep pid t) (adj0, c0)).1 pid
          = some ((dGetD adj0 pid []) ++ qualEdges pid t entries) ∧
      (∀ en ∈ entries,
        (t ≤ (en.2.length : Int) →
          dGet (entries.foldl (edgeStep pid t) (adj0, c0)).1 en.1
            = some ((dGetD adj0 en.1 []) ++ [(pid, ⟨pid, en.1, en.2⟩)])) ∧
        (¬ t ≤ (en.2.length : Int) →
          dGet (entries.foldl (edgeStep pid t) (adj0, c0)).1 en.1
            = dGet adj0 en.1)) ∧
      (∀ x, x ≠ pid → x ∉ dKeys entries →
        dGet (entries.foldl (edgeStep pid t) (adj0, c0)).1 x = dGet adj0 x) ∧
      dKeys (entries.foldl (edgeStep pid t) (adj0, c0)).1 = dKeys adj0 ∧
      (entries.foldl (edgeStep pid t) (adj0, c0)).2
          = c0 + (entries.filter (fun en => decide (t ≤ (en.2.length : Int)))).length := by
  intro entries
  induction entries with
  | nil =>
    intro adj0 c0 _ _ _ hpid _ _
    refine ⟨?_, by simp, fun x _ _ => rfl, rfl, by simp⟩
    rw [List.foldl_nil]
    rw [dGetD_eq_some [] hpid]
    simp [qualEdges]
  | cons en rest ih =>
    intro adj0 c0 hnd hpidk hmem hpid h5 h6
    obtain ⟨oid, s⟩ := en
    rw [dKeys_cons, List.nodup_cons] at hnd
    have hoidpid : oid ≠ pid := by
      intro he
      exact hpidk (by rw [dKeys_cons, he]; exact List.mem_cons_self _ _)
    have hpidrest : pid ∉ dKeys rest := by
      intro hm
      exact hpidk (by rw [dKeys_cons]; exact List.mem_cons_of_mem _ hm)
    by_cases hq : t ≤ (s.length : Int)
    · -- qualifying candidate: both adjacency slots get the edge
      have hA : dGetD (dSet adj0 pid (dSet (dGetD adj0 pid []) oid
          (⟨pid, oid, s⟩ : Edge))) oid [] = dGetD adj0 oid [] := by
        rw [dGetD, dGet_dSet_ne _ _ _ _ hoidpid, dGetD]
      have hstep : edgeStep pid t (adj0, c0) (oid, s) =
          (dSet (dSet adj0 pid (dSet (dGetD adj0 pid []) oid
              (⟨pid, oid, s⟩ : Edge))) oid
            (dSet (dGetD (dSet adj0 pid (dSet (dGetD adj0 pid []) oid
              (⟨pid, oid, s⟩ : Edge))) oid []) pid (⟨pid, oid, s⟩ : Edge)),
           c0 + 1) := by
        have hq2 : t ≤ (((oid, s).2).length : Int) := hq
        simp only [edgeStep, if_pos hq, if_pos hq2]
      rw [hA] at hstep
      rw [List.foldl_cons, hstep]
      set P0 := dGetD adj0 pid [] with hP0
      set I0 := dGetD adj0 oid [] with hI0
      set e₀ : Edge := ⟨pid, oid, s⟩ with he₀
      have h6head : oid ∉ dKeys P0 := h6 (oid, s) (List.mem_cons_self _ _)
      have h5head : pid ∉ dKeys I0 := h5 (oid, s) (List.mem_cons_self _ _)
      have hP0app : dSet P0 oid e₀ = P0 ++ [(oid, e₀)] := dSet_of_not_mem _ h6head
      have hI0app : dSet I0 pid e₀ = I0 ++ [(pid, e₀)] := dSet_of_not_mem _ h5head
      set adjB := dSet (dSet adj0 pid (dSet P0 oid e₀)) oid (dSet I0 pid e₀)
        with hadjB
      have hBpid : dGet adjB pid = some (P0 ++ [(oid, e₀)]) := by
        rw [hadjB, dGet_dSet_ne _ _ _ _ (Ne.symm hoidpid), dGet_dSet_self, hP0app]
      have hBoid : dGet adjB oid = some (I0 ++ [(pid, e₀)]) := by
        rw [hadjB, dGet_dSet_self, hI0app]
      have hBother : ∀ x, x ≠ pid → x ≠ oid → dGet adjB x = dGet adj0 x := by
        intro x hx1 hx2
        rw [hadjB, dGet_dSet_ne _ _ _ _ hx2, dGet_dSet_ne _ _ _ _ hx1]
      have hoidadj : oid ∈ dKeys adj0 := hmem (oid, s) (List.mem_cons_self _ _)
      have hBkeys : dKeys adjB = dKeys adj0 := by
        rw [hadjB, dKeys_dSet_of_mem, dKeys_dSet_of_mem _ hpid]
        rw [dKeys_dSet_of_mem _ hpid]
        exact hoidadj
      have ih' := ih adjB (c0 + 1) hnd.2 hpidrest
        (fun en' hen' => by rw [hBkeys]; exact hmem en' (List.mem_cons_of_mem _ hen'))
        (by rw [hBkeys]; exact hpid)
        (fun en' hen' => by
          have hne1 : en'.1 ≠ pid := by
            intro he
            exact hpidrest (he ▸ (mem_dKeys _ _).mpr ⟨en'.2, (by
              rcases en' with ⟨a, b⟩
              exact hen')⟩)
          have hne2 : en'.1 ≠ oid := by
            intro he
            exact hnd.1 (he ▸ (mem_dKeys _ _).mpr ⟨en'.2, (by
              rcases en' with ⟨a, b⟩
              exact hen')⟩)
          rw [dGetD, hBother _ hne1 hne2]
          exact h5 en' (List.mem_cons_of_mem _ hen'))
        (fun en' hen' => by
          have hne2 : en'.1 ≠ oid := by
            intro he
            exact hnd.1 (he ▸ (mem_dKeys _ _).mpr ⟨en'.2, (by
              rcases en' with ⟨a, b⟩
              exact hen')⟩)
          rw [dGetD, hBpid]
          rw [Option.getD_some, dKeys_append, dKeys_cons, dKeys_nil]
          intro hm
          rcases List.mem_append.mp hm with hm | hm
          · exact h6 en' (List.mem_cons_of_mem _ hen') hm
          · rcases List.mem_cons.mp hm with hm | hm
            · exact hne2 hm
            · simp at hm)
      obtain ⟨c1, c2, c4, c5, c6⟩ := ih'
      have hBpidD : dGetD adjB pid [] = P0 ++ [(oid, e₀)] := by
        rw [dGetD, hBpid, Option.getD_some]
      refine ⟨?_, ?_, ?_, ?_, ?_⟩
      · rw [c1, hBpidD]
        rw [show qualEdges pid t ((oid, s) :: rest)
            = (oid, e₀) :: qualEdges pid t rest by
          rw [qualEdges, qualEdges, List.filter_cons_of_pos (by simpa using hq),
            List.map_cons]]
        rw [List.append_assoc]
        rfl
      · intro en' hen'
        rcases List.mem_cons.mp hen' with hen' | hen'
        · rw [hen']
          refine ⟨fun _ => ?_, fun hnq => absurd hq hnq⟩
          have hoidrest : oid ∉ dKeys rest := hnd.1
          rw [c4 oid hoidpid hoidrest, hBoid, hI0]
        · have hne2 : en'.1 ≠ oid := by
            intro he
            exact hnd.1 (he ▸ (mem_dKeys _ _).mpr ⟨en'.2, (by
              rcases en' with ⟨a, b⟩
              exact hen')⟩)
          have hne1 : en'.1 ≠ pid := by
            intro he
            exact hpidrest (he ▸ (mem_dKeys _ _).mpr ⟨en'.2, (by
              rcases en' with ⟨a, b⟩
              exact hen')⟩)
          obtain ⟨d1, d2⟩ := c2 en' hen'
          refine ⟨fun hq' => ?_, fun hnq' => ?_⟩
          · rw [d1 hq', dGetD, hBother _ hne1 hne2, ← dGetD]
          · rw [d2 hnq', hBother _ hne1 hne2]
      · intro x hx1 hx2
        rw [dKeys_cons] at hx2
        have hx3 : x ≠ oid := fun he => hx2 (he ▸ List.mem_cons_self _ _)
        have hx4 : x ∉ dKeys rest := fun hm => hx2 (List.mem_cons_of_mem _ hm)
        rw [c4 x hx1 hx4, hBother _ hx1 hx3]
      · rw [c5, hBkeys]
      · rw [c6, List.filter_cons_of_pos (by simpa using hq), List.length_cons]
        omega
    · -- candidate below the threshold: nothing changes
      have hstep : edgeStep pid t (adj0, c0) (oid, s) = (adj0, c0) := by
        rw [edgeStep, if_neg hq]
      rw [List.foldl_cons, hstep]
      have ih' := ih adj0 c0 hnd.2 hpidrest
        (fun en' hen' => hmem en' (List.mem_cons_of_mem _ hen'))
        hpid
        (fun en' hen' => h5 en' (List.mem_cons_of_mem _ hen'))
        (fun en' hen' => h6 en' (List.mem_cons_of_mem _ hen'))
      obtain ⟨c1, c2, c4, c5, c6⟩ := ih'
      refine ⟨?_, ?_, ?_, c5, ?_⟩
      · rw [c1]
        rw [show qualEdges pid t ((oid, s) :: rest) = qualEdges pid t rest by
          rw [qualEdges, qualEdges, List.filter_cons_of_neg (by simpa using hq)]]
      · intro en' hen'
        rcases List.mem_cons.mp hen' with hen' | hen'
        · rw [hen']
          refine ⟨fun hq' => absurd hq' hq, fun _ => ?_⟩
          exact c4 oid hoidpid hnd.1
        · exact c2 en' hen'
      · intro x hx1 hx2
        rw [dKeys_cons] at hx2
        exact c4 x hx1 (fun hm => hx2 (List.mem_cons_of_mem _ hm))
      · rw [c6, List.filter_cons_of_neg (by simpa using hq)]

theorem add_post_eq_of_new {g : PostGraph} {post : OSINTPost}
    (hnew : dGet g.nodes post.post_id = none)
    (hadj : dGet g.adj post.post_id = none) :
    g.add_post post =
      (⟨g.min_shared_keywords, dSet g.nodes post.post_id post,
        (addPostFold g post).1,
        kiAdd post.post_id (kwSet post) g.keyword_index⟩,
       (addPostFold g post).2) := by
  rw [PostGraph.add_post, if_neg (by simp [hnew])]
  simp only [hadj, Option.isSome_none, Bool.false_eq_true, if_false, addPostFold]

theorem wf_adj_none {g : PostGraph} (h : WF g) {pid : String}
    (hnew : dGet g.nodes pid = none) : dGet g.adj pid = none := by
  rw [dGet_eq_none_iff] at hnew ⊢
  rw [h.adj_keys]
  exact hnew

theorem wf_no_edge_to_absent {g : PostGraph} (h : WF g) {pid : String}
    (hnew : dGet g.nodes pid = none) (x : String) :
    dGet (dGetD g.adj x []) pid = none := by
  rcases he : dGet (dGetD g.adj x []) pid with _ | e
  · rfl
  · obtain ⟨-, -, -, pa, pb, -, hpb, -⟩ := h.edge_sound x pid e he
    rw [hnew] at hpb
    exact Option.noConfusion hpb

theorem addPostFold_spec {g : PostGraph} (h : WF g) {post : OSINTPost}
    (hnew : dGet g.nodes post.post_id = none) :
    dGet (addPostFold g post).1 post.post_id
        = some (qualEdges post.post_id g.min_shared_keywords
            (ccOf g.keyword_index (kwSet post))) ∧
    (∀ oid s, dGet (ccOf g.keyword_index (kwSet post)) oid = some s →
      (g.min_shared_keywords ≤ (s.length : Int) →
        dGet (addPostFold g post).1 oid
          = some ((dGetD g.adj oid [])
              ++ [(post.post_id, ⟨post.post_id, oid, s⟩)])) ∧
      (¬ g.min_shared_keywords ≤ (s.length : Int) →
        dGet (addPostFold g post).1 oid = dGet g.adj oid)) ∧
    (∀ x, x ≠ post.post_id → dGet (ccOf g.keyword_index (kwSet post)) x = none →
      dGet (addPostFold g post).1 x = dGet g.adj x) ∧
    dKeys (addPostFold g post).1 = dKeys g.adj ++ [post.post_id] ∧
    (addPostFold g post).2 = ((ccOf g.keyword_index (kwSet post)).filter
      (fun en => decide (g.min_shared_keywords ≤ ((en.2.length : Nat) : Int)))).length := by
  set pid := post.post_id with hpid
  set cc := ccOf g.keyword_index (kwSet post) with hcc
  have hccn : (dKeys cc).Nodup := (ccOf_spec g.keyword_index (kwSet post)).1
  have hadj : dGet g.adj pid = none := wf_adj_none h hnew
  have hadjmem : pid ∉ dKeys g.adj := (dGet_eq_none_iff _ _).mp hadj
  set adj1 := dSet g.adj pid ([] : Dict Edge) with hadj1
  have hadj1pid : dGet adj1 pid = some [] := dGet_dSet_self _ _ _
  have hadj1ne : ∀ x, x ≠ pid → dGet adj1 x = dGet g.adj x := fun x hx =>
    dGet_dSet_ne _ _ _ _ hx
  have hadj1keys : dKeys adj1 = dKeys g.adj ++ [pid] :=
    dKeys_dSet_of_not_mem _ hadjmem
  have hccpid : pid ∉ dKeys cc := by
    intro hm
    obtain ⟨s, hs⟩ := Option.isSome_iff_exists.mp ((dGet_isSome_iff cc pid).mpr hm)
    obtain ⟨q, hq, hne, -⟩ := cc_entry_spec h hnew hs
    exact hne rfl
  have hccne : ∀ en, en ∈ cc → en.1 ≠ pid := by
    intro en hen he
    exact hccpid (he ▸ (mem_dKeys _ _).mpr ⟨en.2, by
      rcases en with ⟨a, b⟩
      exact hen⟩)
  have H3 : ∀ en ∈ cc, en.1 ∈ dKeys adj1 := by
    intro en hen
    have hget : dGet cc en.1 = some en.2 := by
      apply dGet_of_mem_of_nodup hccn
      rcases en with ⟨a, b⟩
      exact hen
    obtain ⟨q, hq, -⟩ := cc_entry_spec h hnew hget
    rw [hadj1keys]
    exact List.mem_append.mpr (Or.inl (by rw [h.adj_keys]; exact dGet_mem_keys hq))
  have H4 : pid ∈ dKeys adj1 := by
    rw [hadj1keys]
    exact List.mem_append.mpr (Or.inr (List.mem_cons_self _ _))
  have H5 : ∀ en ∈ cc, pid ∉ dKeys (dGetD adj1 en.1 []) := by
    intro en hen
    have hd : dGetD adj1 en.1 [] = dGetD g.adj en.1 [] := by
      rw [dGetD, hadj1ne en.1 (hccne en hen), dGetD]
    rw [hd]
    intro hm
    obtain ⟨e, he⟩ := (mem_dKeys _ _).mp hm
    have := dGet_of_mem_of_nodup (h.inner_keys_nodup en.1) he
    rw [wf_no_edge_to_absent h hnew en.1] at this
    exact Option.noConfusion this
  have H6 : ∀ en ∈ cc, en.1 ∉ dKeys (dGetD adj1 pid []) := by
    intro en hen
    rw [dGetD, hadj1pid]
    simp [dKeys_nil]
  have spec := edgesFold_spec pid g.min_shared_keywords cc adj1 0
    hccn hccpid H3 H4 H5 H6
  obtain ⟨E1, E2, E4, E5, E6⟩ := spec
  have hfold : (addPostFold g post) = cc.foldl
      (edgeStep pid g.min_shared_keywords) (adj1, 0) := rfl
  refine ⟨?_, ?_, ?_, ?_, ?_⟩
  · rw [hfold, E1, dGetD, hadj1pid]
    simp
  · intro oid s hs
    have hoidmem : oid ∈ dKeys cc := dGet_mem_keys hs
    have hoidne : oid ≠ pid := fun he => hccpid (he ▸ hoidmem)
    have hen : (oid, s) ∈ cc := dGet_mem hs
    obtain ⟨d1, d2⟩ := E2 (oid, s) hen
    constructor
    · intro hq
      rw [hfold, d1 hq]
      rw [dGetD, hadj1ne oid hoidne, dGetD]
    · intro hq
      rw [hfold, d2 hq, hadj1ne oid hoidne]
  · intro x hx hxc
    rw [hfold, E4 x hx ((dGet_eq_none_iff _ _).mp hxc), hadj1ne x hx]
  · rw [hfold, E5, hadj1keys]
  · rw [hfold, E6]
    simp

theorem wf_add_post {g : PostGraph} (h : WF g) (post : OSINTPost) :
    WF (g.add_post post).1 := by
  by_cases hdup : (dGet g.nodes post.post_id).isSome
  · rw [PostGraph.add_post, if_pos hdup]
    exact h
  · have hnew : dGet g.nodes post.post_id = none := by
      cases hd : dGet g.nodes post.post_id
      · rfl
      · rw [hd] at hdup
        simp at hdup
    have hadj := wf_adj_none h hnew
    rw [add_post_eq_of_new hnew hadj]
    obtain ⟨E1, E2, E4, E5k, -⟩ := addPostFold_spec h hnew
    have hccn : (dKeys (ccOf g.keyword_index (kwSet post))).Nodup :=
      (ccOf_spec g.keyword_index (kwSet post)).1
    have hccpid : post.post_id ∉ dKeys (ccOf g.keyword_index (kwSet post)) := by
      intro hm
      obtain ⟨s, hs⟩ := Option.isSome_iff_exists.mp
        ((dGet_isSome_iff _ _).mpr hm)
      obtain ⟨q, hq, hne, -⟩ := cc_entry_spec h hnew hs
      exact hne rfl
    have hpidkeys : post.post_id ∉ dKeys g.nodes := (dGet_eq_none_iff _ _).mp hnew
    have hnN_pid : dGet (dSet g.nodes post.post_id post) post.post_id = some post :=
      dGet_dSet_self _ _ _
    have hnN_ne : ∀ x, x ≠ post.post_id →
        dGet (dSet g.nodes post.post_id post) x = dGet g.nodes x :=
      fun x hx => dGet_dSet_ne _ _ _ _ hx
    have hnN_keys : dKeys (dSet g.nodes post.post_id post) = dKeys g.nodes ++ [post.post_id] :=
      dKeys_dSet_of_not_mem _ hpidkeys
    have hApidD : dGetD (addPostFold g post).1 post.post_id []
        = qualEdges post.post_id g.min_shared_keywords (ccOf g.keyword_index (kwSet post)) := by
      rw [dGetD, E1]
      rfl
    have hEpid : ∀ b, dGet (dGetD (addPostFold g post).1 post.post_id []) b =
        match dGet (ccOf g.keyword_index (kwSet post)) b with
        | some s => if g.min_shared_keywords ≤ (s.length : Int)
                    then some ⟨post.post_id, b, s⟩ else none
        | none => none := by
      intro b
      rw [hApidD]
      exact qualEdges_get _ _ hccn b
    have hEcand : ∀ b, b ≠ post.post_id →
        dGet (dGetD (addPostFold g post).1 b []) post.post_id =
        match dGet (ccOf g.keyword_index (kwSet post)) b with
        | some s => if g.min_shared_keywords ≤ (s.length : Int)
                    then some ⟨post.post_id, b, s⟩ else none
        | none => none := by
      intro b hb
      rcases hcb : dGet (ccOf g.keyword_index (kwSet post)) b with _ | s
      · have hd : dGetD (addPostFold g post).1 b [] = dGetD g.adj b [] := by
          rw [dGetD, E4 b hb hcb, dGetD]
        rw [hd, wf_no_edge_to_absent h hnew b]
      · obtain ⟨d1, d2⟩ := E2 b s hcb
        by_cases hq : g.min_shared_keywords ≤ (s.length : Int)
        · have hd : dGetD (addPostFold g post).1 b []
              = dGetD g.adj b [] ++ [(post.post_id, ⟨post.post_id, b, s⟩)] := by
            rw [dGetD, d1 hq]
            rfl
          rw [hd, dGet_append, wf_no_edge_to_absent h hnew b]
          simp [dGet, hq]
        · have hd : dGetD (addPostFold g post).1 b [] = dGetD g.adj b [] := by
            rw [dGetD, d2 hq, dGetD]
          rw [hd, wf_no_edge_to_absent h hnew b]
          simp [hq]
    have hEpid_some : ∀ b s, dGet (ccOf g.keyword_index (kwSet post)) b = some s →
        dGet (dGetD (addPostFold g post).1 post.post_id []) b =
          if g.min_shared_keywords ≤ (s.length : Int)
          then some ⟨post.post_id, b, s⟩ else none := by
      intro b s hs
      rw [hEpid b, hs]
    have hEpid_none : ∀ b, dGet (ccOf g.keyword_index (kwSet post)) b = none →
        dGet (dGetD (addPostFold g post).1 post.post_id []) b = none := by
      intro b hs
      rw [hEpid b, hs]
    have hEcand_some : ∀ b s, b ≠ post.post_id →
        dGet (ccOf g.keyword_index (kwSet post)) b = some s →
        dGet (dGetD (addPostFold g post).1 b []) post.post_id =
          if g.min_shared_keywords ≤ (s.length : Int)
          then some ⟨post.post_id, b, s⟩ else none := by
      intro b s hb hs
      rw [hEcand b hb, hs]
    have hEcand_none : ∀ b, b ≠ post.post_id →
        dGet (ccOf g.keyword_index (kwSet post)) b = none →
        dGet (dGetD (addPostFold g post).1 b []) post.post_id = none := by
      intro b hb hs
      rw [hEcand b hb, hs]
    have hEold : ∀ a, a ≠ post.post_id → ∀ b, b ≠ post.post_id →
        dGet (dGetD (addPostFold g post).1 a []) b = dGet (dGetD g.adj a []) b := by
      intro a ha b hb
      rcases hca : dGet (ccOf g.keyword_index (kwSet post)) a with _ | s
      · rw [show dGetD (addPostFold g post).1 a [] = dGetD g.adj a [] by
          rw [dGetD, E4 a ha hca, dGetD]]
      · obtain ⟨d1, d2⟩ := E2 a s hca
        by_cases hq : g.min_shared_keywords ≤ (s.length : Int)
        · rw [show dGetD (addPostFold g post).1 a []
              = dGetD g.adj a [] ++ [(post.post_id, ⟨post.post_id, a, s⟩)] by
            rw [dGetD, d1 hq]
            rfl]
          rw [dGet_append]
          have hbp : ¬(post.post_id = b) := fun hh => hb hh.symm
          rcases hgb : dGet (dGetD g.adj a []) b with _ | e
          · simp [dGet, hbp]
          · rfl
        · rw [show dGetD (addPostFold g post).1 a [] = dGetD g.adj a [] by
            rw [dGetD, d2 hq, dGetD]]
    have hkiget := kiAdd_get post.post_id (kwSet post) (kwSet_nodup post)
      g.keyword_index
    refine ⟨?_, ?_, ?_, ?_, ?_, ?_, ?_, ?_, ?_, ?_, ?_⟩
    · show (dKeys (dSet g.nodes post.post_id post)).Nodup
      rw [hnN_keys]
      simp [List.nodup_append, h.nodes_nodup, hpidkeys]
    · show dKeys (addPostFold g post).1 = dKeys (dSet g.nodes post.post_id post)
      rw [E5k, hnN_keys, h.adj_keys]
    · show (dKeys (kiAdd post.post_id (kwSet post) g.keyword_index)).Nodup
      exact kiAdd_keys_nodup _ _ _ h.ki_nodup
    · intro x p hx
      by_cases hxp : x = post.post_id
      · subst hxp
        rw [hnN_pid] at hx
        injection hx with hx
        rw [← hx]
      · rw [hnN_ne x hxp] at hx
        exact h.nodes_ids x p hx
    · intro x inner hx
      by_cases hxp : x = post.post_id
      · subst hxp
        rw [E1] at hx
        injection hx with hx
        rw [← hx]
        exact qualEdges_keys_nodup _ _ hccn
      · rcases hca : dGet (ccOf g.keyword_index (kwSet post)) x with _ | s
        · rw [E4 x hxp hca] at hx
          exact h.inner_nodup x inner hx
        · obtain ⟨d1, d2⟩ := E2 x s hca
          by_cases hq : g.min_shared_keywords ≤ (s.length : Int)
          · rw [d1 hq] at hx
            injection hx with hx
            rw [← hx, dKeys_append, dKeys_cons, dKeys_nil]
            have h1 : (dKeys (dGetD g.adj x [])).Nodup := h.inner_keys_nodup x
            have h2 : post.post_id ∉ dKeys (dGetD g.adj x []) :=
              (dGet_eq_none_iff _ _).mp (wf_no_edge_to_absent h hnew x)
            simp [List.nodup_append, h1, h2]
          · rw [d2 hq] at hx
            exact h.inner_nodup x inner hx
    · intro kw ids hkw
      rw [hkiget kw] at hkw
      by_cases hkm : kw ∈ kwSet post
      · rw [if_pos hkm] at hkw
        injection hkw with hkw
        rw [← hkw]
        apply sInsert_nodup
        rcases hg : dGet g.keyword_index kw with _ | ids₀
        · simp [dGetD, hg]
        · rw [dGetD, hg, Option.getD_some]
          exact h.postings_nodup kw ids₀ hg
      · rw [if_neg hkm] at hkw
        exact h.postings_nodup kw ids hkw
    · intro kw ids hkw x hx
      rw [hkiget kw] at hkw
      by_cases hkm : kw ∈ kwSet post
      · rw [if_pos hkm] at hkw
        injection hkw with hkw
        rw [← hkw, mem_sInsert] at hx
        rcases hx with hx | hx
        · obtain ⟨ids₀, hids₀, hx₀⟩ := (mem_dGetD_nil_iff _ _ _).mp hx
          obtain ⟨q, hq, hkq⟩ := h.index_sound kw ids₀ hids₀ x hx₀
          have hxp : x ≠ post.post_id := by
            intro he
            rw [he, hnew] at hq
            exact Option.noConfusion hq
          exact ⟨q, by rw [hnN_ne x hxp]; exact hq, hkq⟩
        · subst hx
          exact ⟨post, hnN_pid, hkm⟩
      · rw [if_neg hkm] at hkw
        obtain ⟨q, hq, hkq⟩ := h.index_sound kw ids hkw x hx
        have hxp : x ≠ post.post_id := by
          intro he
          rw [he, hnew] at hq
          exact Option.noConfusion hq
        exact ⟨q, by rw [hnN_ne x hxp]; exact hq, hkq⟩
    · intro x p hx kw hkw
      show x ∈ dGetD (kiAdd post.post_id (kwSet post) g.keyword_index) kw []
      by_cases hxp : x = post.post_id
      · subst hxp
        rw [hnN_pid] at hx
        injection hx with hx
        subst hx
        rw [dGetD, hkiget kw, if_pos hkw, Option.getD_some, mem_sInsert]
        exact Or.inr rfl
      · rw [hnN_ne x hxp] at hx
        have hmem := h.index_complete x p hx kw hkw
        by_cases hkm : kw ∈ kwSet post
        · rw [dGetD, hkiget kw, if_pos hkm, Option.getD_some, mem_sInsert]
          exact Or.inl hmem
        · rw [dGetD, hkiget kw, if_neg hkm]
          rw [dGetD] at hmem
          exact hmem
    · intro a b
      show dGet (dGetD (addPostFold g post).1 a []) b
          = dGet (dGetD (addPostFold g post).1 b []) a
      by_cases ha : a = post.post_id
      · subst ha
        by_cases hb : b = post.post_id
        · subst hb
          rfl
        · rw [hEpid b, hEcand b hb]
      · by_cases hb : b = post.post_id
        · subst hb
          rw [hEpid a, hEcand a ha]
        · rw [hEold a ha b hb, hEold b hb a ha]
          have := h.edge_symm a b
          rw [getEdge, getEdge] at this
          exact this
    · intro a b e hab
      have hab' : dGet (dGetD (addPostFold g post).1 a []) b = some e := hab
      by_cases ha : a = post.post_id
      · subst ha
        rcases hcb : dGet (ccOf g.keyword_index (kwSet post)) b with _ | s
        · rw [hEpid_none b hcb] at hab'
          exact Option.noConfusion hab'
        · rw [hEpid_some b s hcb] at hab'
          by_cases hq : g.min_shared_keywords ≤ (s.length : Int)
          · rw [if_pos hq] at hab'
            injection hab' with hab'
            obtain ⟨q, hq', hne, hsne, hsnd, hmem⟩ := cc_entry_spec h hnew hcb
            refine ⟨Ne.symm hne, ?_, ?_, post, q, hnN_pid,
              by rw [hnN_ne b hne]; exact hq', ?_, ?_⟩
            · rw [← hab']
              exact hsne
            · rw [← hab']
              exact hsnd
            · intro k
              rw [← hab']
              exact hmem k
            · rw [← hab']
              exact hq
          · rw [if_neg hq] at hab'
            exact Option.noConfusion hab'
      · by_cases hb : b = post.post_id
        · subst hb
          rcases hca : dGet (ccOf g.keyword_index (kwSet post)) a with _ | s
          · rw [hEcand_none a ha hca] at hab'
            exact Option.noConfusion hab'
          · rw [hEcand_some a s ha hca] at hab'
            by_cases hq : g.min_shared_keywords ≤ (s.length : Int)
            · rw [if_pos hq] at hab'
              injection hab' with hab'
              obtain ⟨q, hq', hne, hsne, hsnd, hmem⟩ := cc_entry_spec h hnew hca
              refine ⟨hne, ?_, ?_, q, post,
                by rw [hnN_ne a hne]; exact hq', hnN_pid, ?_, ?_⟩
              · rw [← hab']
                exact hsne
              · rw [← hab']
                exact hsnd
              · intro k
                rw [← hab']
                constructor
                · intro hk
                  obtain ⟨hk1, hk2⟩ := (hmem k).mp hk
                  exact ⟨hk2, hk1⟩
                · rintro ⟨hk1, hk2⟩
                  exact (hmem k).mpr ⟨hk2, hk1⟩
              · rw [← hab']
                exact hq
            · rw [if_neg hq] at hab'
              exact Option.noConfusion hab'
        · rw [hEold a ha b hb] at hab'
          have hg : getEdge g a b = some e := hab'
          obtain ⟨h1, h2, h3, pa, pb, hpa, hpb, hmem, hlen⟩ := h.edge_sound a b e hg
          exact ⟨h1, h2, h3, pa, pb, by rw [hnN_ne a ha]; exact hpa,
            by rw [hnN_ne b hb]; exact hpb, hmem, hlen⟩
    · intro a b pa pb hne ha hb hint hlen
      show (dGet (dGetD (addPostFold g post).1 a []) b).isSome
      have ha2 : dGet (dSet g.nodes post.post_id post) a = some pa := ha
      have hb2 : dGet (dSet g.nodes post.post_id post) b = some pb := hb
      have hlen2 : g.min_shared_keywords
          ≤ ((interList (kwSet pa) (kwSet pb)).length : Int) := hlen
      by_cases hapid : a = post.post_id
      · subst hapid
        have hpa : pa = post := by
          rw [hnN_pid] at ha2
          injection ha2 with ha2
          exact ha2.symm
        have hbne : b ≠ post.post_id := Ne.symm hne
        have hb' : dGet g.nodes b = some pb := by
          rw [hnN_ne b hbne] at hb2
          exact hb2
        have hint2 : interList (kwSet post) (kwSet pb) ≠ [] := by
          rw [← hpa]
          exact hint
        obtain ⟨s, hs⟩ := cc_complete h post hb' hint2
        obtain ⟨q, hq', -, hsne, hsnd, hmem⟩ := cc_entry_spec h hnew hs
        have hqpb : q = pb := by
          rw [hb'] at hq'
          injection hq' with hq'
          exact hq'.symm
        have hslen : s.length = (interList (kwSet pa) (kwSet pb)).length := by
          apply length_eq_of_nodup_of_mem_iff hsnd
            (interList_nodup _ (kwSet_nodup pa))
          intro k
          rw [hmem k, mem_interList, hqpb, hpa]
        have hq2 : g.min_shared_keywords ≤ (s.length : Int) := by
          rw [hslen]
          exact hlen2
        rw [hEpid_some b s hs, if_pos hq2]
        rfl
      · by_cases hbpid : b = post.post_id
        · subst hbpid
          have hpb : pb = post := by
            rw [hnN_pid] at hb2
            injection hb2 with hb2
            exact hb2.symm
          have ha' : dGet g.nodes a = some pa := by
            rw [hnN_ne a hapid] at ha2
            exact ha2
          have hint2 : interList (kwSet post) (kwSet pa) ≠ [] := by
            obtain ⟨k₀, hk₀⟩ := List.exists_mem_of_ne_nil _ hint
            obtain ⟨hk₁, hk₂⟩ := (mem_interList _ _ _).mp hk₀
            rw [hpb] at hk₂
            exact List.ne_nil_of_mem ((mem_interList _ _ _).mpr ⟨hk₂, hk₁⟩)
          obtain ⟨s, hs⟩ := cc_complete h post ha' hint2
          obtain ⟨q, hq', -, hsne, hsnd, hmem⟩ := cc_entry_spec h hnew hs
          have hqpa : q = pa := by
            rw [ha'] at hq'
            injection hq' with hq'
            exact hq'.symm
          have hslen : s.length = (interList (kwSet pa) (kwSet pb)).length := by
            apply length_eq_of_nodup_of_mem_iff hsnd
              (interList_nodup _ (kwSet_nodup pa))
            intro k
            rw [hmem k, mem_interList, hqpa, hpb]
            tauto
          have hq2 : g.min_shared_keywords ≤ (s.length : Int) := by
            rw [hslen]
            exact hlen2
          rw [hEcand_some a s hapid hs, if_pos hq2]
          rfl
        · have ha' : dGet g.nodes a = some pa := by
            rw [hnN_ne a hapid] at ha2
            exact ha2
          have hb' : dGet g.nodes b = some pb := by
            rw [hnN_ne b hbpid] at hb2
            exact hb2
          have := h.edge_complete a b pa pb hne ha' hb' hint hlen2
          rw [getEdge] at this
          rw [hEold a hapid b hbpid]
          exact this

/-! ### Characterizing `remove_post` -/

theorem remove_post_of_absent {g : PostGraph} {pid : String}
    (h : dGet g.nodes pid = none) : g.remove_post pid = g := by
  simp only [PostGraph.remove_post, h]

theorem remove_post_eq {g : PostGraph} {pid : String} {post : OSINTPost}
    (hpost : dGet g.nodes pid = some post) :
    g.remove_post pid = ⟨g.min_shared_keywords, dErase g.nodes pid,
      dErase (adjDrop pid (dKeys (dGetD g.adj pid [])) g.adj) pid,
      kiRemove pid (kwSet post) g.keyword_index⟩ := by
  simp only [PostGraph.remove_post, hpost]

theorem adjDrop_get (pid : String) :
    ∀ (nbs : List String), nbs.Nodup → ∀ (adj : Dict (Dict Edge)) (x : String),
      dGet (adjDrop pid nbs adj) x =
        if x ∈ nbs then (dGet adj x).map (fun inner => dErase inner pid)
        else dGet adj x := by
  intro nbs
  induction nbs with
  | nil =>
    intro _ adj x
    simp [adjDrop]
  | cons nb₀ rest ih =>
    intro hnd adj x
    rw [List.nodup_cons] at hnd
    rw [adjDrop, List.foldl_cons]
    set adj₁ := (match dGet adj nb₀ with
      | none => adj
      | some inner => dSet adj nb₀ (dErase inner pid)) with hadj₁
    have hstep : (List.foldl (fun adj nb =>
        match dGet adj nb with
        | none => adj
        | some inner => dSet adj nb (dErase inner pid)) adj₁ rest) =
        adjDrop pid rest adj₁ := rfl
    have h₁ne : ∀ y, y ≠ nb₀ → dGet adj₁ y = dGet adj y := by
      intro y hy
      rw [hadj₁]
      rcases dGet adj nb₀ with _ | inner
      · rfl
      · exact dGet_dSet_ne _ _ _ _ hy
    have h₁nb : dGet adj₁ nb₀ = (dGet adj nb₀).map (fun inner => dErase inner pid) := by
      rw [hadj₁]
      rcases hnb : dGet adj nb₀ with _ | inner
      · show dGet adj nb₀ = none
        exact hnb
      · exact dGet_dSet_self _ _ _
    rw [hstep, ih hnd.2 _ x]
    by_cases hx : x ∈ rest
    · have hne : x ≠ nb₀ := fun he => hnd.1 (he ▸ hx)
      rw [if_pos hx, if_pos (List.mem_cons_of_mem _ hx), h₁ne x hne]
    · rw [if_neg hx]
      by_cases he : x = nb₀
      · subst he
        rw [if_pos (List.mem_cons_self _ _)]
        exact h₁nb
      · rw [h₁ne x he, if_neg (by simp [he, hx])]

theorem adjDrop_keys (pid : String) :
    ∀ (nbs : List String) (adj : Dict (Dict Edge)),
      dKeys (adjDrop pid nbs adj) = dKeys adj := by
  intro nbs
  induction nbs with
  | nil => intro adj; rfl
  | cons nb₀ rest ih =>
    intro adj
    rw [adjDrop, List.foldl_cons]
    have hstep : (List.foldl (fun adj nb =>
        match dGet adj nb with
        | none => adj
        | some inner => dSet adj nb (dErase inner pid)) (match dGet adj nb₀ with
          | none => adj
          | some inner => dSet adj nb₀ (dErase inner pid)) rest) =
        adjDrop pid rest (match dGet adj nb₀ with
          | none => adj
          | some inner => dSet adj nb₀ (dErase inner pid)) := rfl
    rw [hstep, ih]
    rcases hnb : dGet adj nb₀ with _ | inner
    · rfl
    · exact dKeys_dSet_of_mem _ (dGet_mem_keys hnb)

theorem wf_remove_post {g : PostGraph} (h : WF g) (pid : String) :
    WF (g.remove_post pid) := by
  rcases hpost : dGet g.nodes pid with _ | post
  · rw [remove_post_of_absent hpost]
    exact h
  · rw [remove_post_eq hpost]
    have hNnd : (dKeys (dGetD g.adj pid [])).Nodup := h.inner_keys_nodup pid
    have hadget := adjDrop_get pid (dKeys (dGetD g.adj pid [])) hNnd g.adj
    have hA2pid : dGet (dErase (adjDrop pid (dKeys (dGetD g.adj pid [])) g.adj) pid) pid
        = none := dGet_dErase_self _ _
    have hA2x : ∀ x, x ≠ pid →
        dGet (dErase (adjDrop pid (dKeys (dGetD g.adj pid [])) g.adj) pid) x =
          if x ∈ dKeys (dGetD g.adj pid [])
          then (dGet g.adj x).map (fun inner => dErase inner pid)
          else dGet g.adj x := by
      intro x hx
      rw [dGet_dErase_ne _ _ _ hx, hadget x]
    have hnoedge : ∀ a, a ∉ dKeys (dGetD g.adj pid []) →
        dGet (dGetD g.adj a []) pid = none := by
      intro a hm
      rcases hge : dGet (dGetD g.adj a []) pid with _ | e
      · rfl
      · exfalso
        have hsym : getEdge g pid a = some e := by
          rw [← h.edge_symm a pid]
          exact hge
        exact hm (dGet_mem_keys hsym)
    have hE_a_pid : ∀ b,
        dGet (dGetD (dErase (adjDrop pid (dKeys (dGetD g.adj pid [])) g.adj) pid) pid []) b
          = none := by
      intro b
      rw [dGetD, hA2pid]
      rfl
    have hE_b_pid : ∀ a, a ≠ pid →
        dGet (dGetD (dErase (adjDrop pid (dKeys (dGetD g.adj pid [])) g.adj) pid) a []) pid
          = none := by
      intro a ha
      have hx := hA2x a ha
      by_cases hm : a ∈ dKeys (dGetD g.adj pid [])
      · rw [if_pos hm] at hx
        rcases hga : dGet g.adj a with _ | inner
        · rw [hga] at hx
          rw [dGetD, hx]
          rfl
        · rw [hga] at hx
          rw [dGetD, hx]
          show dGet (dErase inner pid) pid = none
          exact dGet_dErase_self _ _
      · rw [if_neg hm] at hx
        rw [dGetD, hx]
        exact hnoedge a hm
    have hE_old : ∀ a, a ≠ pid → ∀ b, b ≠ pid →
        dGet (dGetD (dErase (adjDrop pid (dKeys (dGetD g.adj pid [])) g.adj) pid) a []) b
          = getEdge g a b := by
      intro a ha b hb
      have hx := hA2x a ha
      by_cases hm : a ∈ dKeys (dGetD g.adj pid [])
      · rw [if_pos hm] at hx
        rcases hga : dGet g.adj a with _ | inner
        · rw [hga] at hx
          rw [dGetD, hx, getEdge, dGetD, hga]
          rfl
        · rw [hga] at hx
          rw [dGetD, hx, getEdge, dGetD, hga]
          show dGet (dErase inner pid) b = dGet inner b
          exact dGet_dErase_ne _ _ _ hb
      · rw [if_neg hm] at hx
        rw [dGetD, hx, getEdge, dGetD]
    have hkiget := kiRemove_get pid (kwSet post) (kwSet_nodup post) g.keyword_index
    have hkiR_mem_some : ∀ kw ids₀, kw ∈ kwSet post →
        dGet g.keyword_index kw = some ids₀ →
        dGet (kiRemove pid (kwSet post) g.keyword_index) kw =
          (if ids₀.filter (fun x => decide (x ≠ pid)) = [] then none
           else some (ids₀.filter (fun x => decide (x ≠ pid)))) := by
      intro kw ids₀ hkm hg
      rw [hkiget kw, if_pos hkm, hg]
    have hkiR_mem_none : ∀ kw, kw ∈ kwSet post →
        dGet g.keyword_index kw = none →
        dGet (kiRemove pid (kwSet post) g.keyword_index) kw = none := by
      intro kw hkm hg
      rw [hkiget kw, if_pos hkm, hg]
    have hkiR_nmem : ∀ kw, kw ∉ kwSet post →
        dGet (kiRemove pid (kwSet post) g.keyword_index) kw
          = dGet g.keyword_index kw := by
      intro kw hkm
      rw [hkiget kw, if_neg hkm]
    have hnR_pid : dGet (dErase g.nodes pid) pid = none := dGet_dErase_self _ _
    have hnR_ne : ∀ x, x ≠ pid → dGet (dErase g.nodes pid) x = dGet g.nodes x :=
      fun x hx => dGet_dErase_ne _ _ _ hx
    refine ⟨?_, ?_, ?_, ?_, ?_, ?_, ?_, ?_, ?_, ?_, ?_⟩
    · exact dKeys_dErase_nodup _ h.nodes_nodup
    · show dKeys (dErase (adjDrop pid (dKeys (dGetD g.adj pid [])) g.adj) pid)
        = dKeys (dErase g.nodes pid)
      rw [dKeys_dErase, adjDrop_keys, h.adj_keys, dKeys_dErase]
    · exact kiRemove_keys_nodup _ _ _ h.ki_nodup
    · intro x p hx
      by_cases hxp : x = pid
      · subst hxp
        rw [hnR_pid] at hx
        exact Option.noConfusion hx
      · rw [hnR_ne x hxp] at hx
        exact h.nodes_ids x p hx
    · intro x inner hx
      by_cases hxp : x = pid
      · subst hxp
        rw [hA2pid] at hx
        exact Option.noConfusion hx
      · rw [hA2x x hxp] at hx
        by_cases hm : x ∈ dKeys (dGetD g.adj pid [])
        · rw [if_pos hm] at hx
          rcases hga : dGet g.adj x with _ | inner₀
          · rw [hga] at hx
            exact Option.noConfusion hx
          · rw [hga] at hx
            have hx' : dErase inner₀ pid = inner := by
              injection hx
            rw [← hx']
            exact dKeys_dErase_nodup _ (h.inner_nodup x inner₀ hga)
        · rw [if_neg hm] at hx
          exact h.inner_nodup x inner hx
    · intro kw ids hkw
      by_cases hkm : kw ∈ kwSet post
      · rcases hg : dGet g.keyword_index kw with _ | ids₀
        · rw [hkiR_mem_none kw hkm hg] at hkw
          exact Option.noConfusion hkw
        · rw [hkiR_mem_some kw ids₀ hkm hg] at hkw
          by_cases hnil : ids₀.filter (fun x => decide (x ≠ pid)) = []
          · rw [if_pos hnil] at hkw
            exact Option.noConfusion hkw
          · rw [if_neg hnil] at hkw
            injection hkw with hkw
            rw [← hkw]
            exact (h.postings_nodup kw ids₀ hg).filter _
      · rw [hkiR_nmem kw hkm] at hkw
        exact h.postings_nodup kw ids hkw
    · intro kw ids hkw x hx
      by_cases hkm : kw ∈ kwSet post
      · rcases hg : dGet g.keyword_index kw with _ | ids₀
        · rw [hkiR_mem_none kw hkm hg] at hkw
          exact Option.noConfusion hkw
        · rw [hkiR_mem_some kw ids₀ hkm hg] at hkw
          by_cases hnil : ids₀.filter (fun x => decide (x ≠ pid)) = []
          · rw [if_pos hnil] at hkw
            exact Option.noConfusion hkw
          · rw [if_neg hnil] at hkw
            injection hkw with hkw
            rw [← hkw] at hx
            rw [List.mem_filter] at hx
            obtain ⟨hx₀, hxne⟩ := hx
            have hxne' : x ≠ pid := by simpa using hxne
            obtain ⟨q, hq, hkq⟩ := h.index_sound kw ids₀ hg x hx₀
            exact ⟨q, by rw [hnR_ne x hxne']; exact hq, hkq⟩
      · rw [hkiR_nmem kw hkm] at hkw
        obtain ⟨q, hq, hkq⟩ := h.index_sound kw ids hkw x hx
        have hxne : x ≠ pid := by
          intro he
          rw [he, hpost] at hq
          injection hq with hq
          rw [← hq] at hkq
          exact hkm hkq
        exact ⟨q, by rw [hnR_ne x hxne]; exact hq, hkq⟩
    · intro x p hx kw hkw
      have hxp : x ≠ pid := by
        intro he
        rw [he, hnR_pid] at hx
        exact Option.noConfusion hx
      rw [hnR_ne x hxp] at hx
      have hmem := h.index_complete x p hx kw hkw
      show x ∈ dGetD (kiRemove pid (kwSet post) g.keyword_index) kw []
      by_cases hkm : kw ∈ kwSet post
      · obtain ⟨ids₀, hg, hx₀⟩ := (mem_dGetD_nil_iff _ _ _).mp hmem
        have hxfil : x ∈ ids₀.filter (fun y => decide (y ≠ pid)) := by
          rw [List.mem_filter]
          exact ⟨hx₀, by simpa using hxp⟩
        have hnil : ids₀.filter (fun y => decide (y ≠ pid)) ≠ [] :=
          List.ne_nil_of_mem hxfil
        rw [dGetD, hkiR_mem_some kw ids₀ hkm hg, if_neg hnil, Option.getD_some]
        exact hxfil
      · rw [dGetD, hkiR_nmem kw hkm]
        rw [dGetD] at hmem
        exact hmem
    · intro a b
      show dGet (dGetD (dErase (adjDrop pid (dKeys (dGetD g.adj pid [])) g.adj) pid) a []) b
        = dGet (dGetD (dErase (adjDrop pid (dKeys (dGetD g.adj pid [])) g.adj) pid) b []) a
      by_cases ha : a = pid
      · rw [ha, hE_a_pid b]
        by_cases hb : b = pid
        · rw [hb, hE_a_pid pid]
        · rw [hE_b_pid b hb]
      · by_cases hb : b = pid
        · rw [hb, hE_b_pid a ha, hE_a_pid a]
        · rw [hE_old a ha b hb, hE_old b hb a ha]
          exact h.edge_symm a b
    · intro a b e hab
      have hab' : dGet (dGetD (dErase (adjDrop pid (dKeys (dGetD g.adj pid [])) g.adj) pid) a []) b
          = some e := hab
      by_cases ha : a = pid
      · rw [ha, hE_a_pid b] at hab'
        exact Option.noConfusion hab'
      · by_cases hb : b = pid
        · rw [hb, hE_b_pid a ha] at hab'
          exact Option.noConfusion hab'
        · rw [hE_old a ha b hb] at hab'
          obtain ⟨h1, h2, h3, pa, pb, hpa, hpb, hmem, hlen⟩ := h.edge_sound a b e hab'
          exact ⟨h1, h2, h3, pa, pb, by rw [hnR_ne a ha]; exact hpa,
            by rw [hnR_ne b hb]; exact hpb, hmem, hlen⟩
    · intro a b pa pb hne ha hb hint hlen
      have ha2 : dGet (dErase g.nodes pid) a = some pa := ha
      have hb2 : dGet (dErase g.nodes pid) b = some pb := hb
      have hlen2 : g.min_shared_keywords
          ≤ ((interList (kwSet pa) (kwSet pb)).length : Int) := hlen
      have hap : a ≠ pid := by
        intro he
        rw [he, hnR_pid] at ha2
        exact Option.noConfusion ha2
      have hbp : b ≠ pid := by
        intro he
        rw [he, hnR_pid] at hb2
        exact Option.noConfusion hb2
      rw [hnR_ne a hap] at ha2
      rw [hnR_ne b hbp] at hb2
      have := h.edge_complete a b pa pb hne ha2 hb2 hint hlen2
      show (dGet (dGetD (dErase (adjDrop pid (dKeys (dGetD g.adj pid [])) g.adj) pid) a []) b).isSome
      rw [hE_old a hap b hbp]
      exact this

/-! ### Duplicate inserts, batch insertion and reachability -/

theorem add_post_of_mem {g : PostGraph} {post : OSINTPost}
    (h : (dGet g.nodes post.post_id).isSome) : g.add_post post = (g, 0) := by
  rw [PostGraph.add_post, if_pos h]

theorem add_posts_aux : ∀ (posts : List OSINTPost) (g : PostGraph) (n e : Nat),
    (posts.foldl addPostsStep (g, ⟨n, e⟩)).1 = (addDocumentsSeq g posts).1 ∧
    (posts.foldl addPostsStep (g, ⟨n, e⟩)).2.edges_created
      = e + (addDocumentsSeq g posts).2 := by
  intro posts
  induction posts with
  | nil =>
    intro g n e
    exact ⟨rfl, by simp [addDocumentsSeq]⟩
  | cons p ps ih =>
    intro g n e
    rw [List.foldl_cons]
    by_cases hd : (dGet g.nodes p.post_id).isSome
    · have hd2 : (dGet ((g, (⟨n, e⟩ : AddStats))).1.nodes p.post_id).isSome := hd
      have hstep : addPostsStep (g, ⟨n, e⟩) p = (g, ⟨n, e⟩) := by
        simp only [addPostsStep, if_pos hd, if_pos hd2]
      rw [hstep]
      have hseq : addDocumentsSeq g (p :: ps)
          = ((addDocumentsSeq g ps).1, 0 + (addDocumentsSeq g ps).2) := by
        rw [addDocumentsSeq]
        rw [add_post_of_mem hd]
      obtain ⟨ih1, ih2⟩ := ih g n e
      rw [hseq]
      exact ⟨ih1, by rw [ih2]; omega⟩
    · have hd2 : ¬ (dGet ((g, (⟨n, e⟩ : AddStats))).1.nodes p.post_id).isSome := hd
      have hstep : addPostsStep (g, ⟨n, e⟩) p
          = ((g.add_post p).1, ⟨n + 1, e + (g.add_post p).2⟩) := by
        simp only [addPostsStep, if_neg hd, if_neg hd2]
      rw [hstep]
      have hseq : addDocumentsSeq g (p :: ps)
          = ((addDocumentsSeq (g.add_post p).1 ps).1,
             (g.add_post p).2 + (addDocumentsSeq (g.add_post p).1 ps).2) := rfl
      obtain ⟨ih1, ih2⟩ := ih (g.add_post p).1 (n + 1) (e + (g.add_post p).2)
      rw [hseq]
      refine ⟨ih1, ?_⟩
      rw [ih2]
      omega

theorem add_posts_eq_seq (g : PostGraph) (posts : List OSINTPost) :
    (g.add_posts posts).1 = (addDocumentsSeq g posts).1 ∧
    (g.add_posts posts).2.edges_created = (addDocumentsSeq g posts).2 := by
  have := add_posts_aux posts g 0 0
  rw [PostGraph.add_posts]
  exact ⟨this.1, by rw [this.2]; omega⟩

theorem wf_addDocumentsSeq : ∀ (posts : List OSINTPost) (g : PostGraph),
    WF g → WF (addDocumentsSeq g posts).1 := by
  intro posts
  induction posts with
  | nil => intro g h; exact h
  | cons p ps ih =>
    intro g h
    exact ih (g.add_post p).1 (wf_add_post h p)

theorem wf_add_posts {g : PostGraph} (h : WF g) (posts : List OSINTPost) :
    WF (g.add_posts posts).1 := by
  rw [(add_posts_eq_seq g posts).1]
  exact wf_addDocumentsSeq posts g h

/-- Every state reachable through the public mutation API is
well-formed. -/
theorem reachable_wf {g : PostGraph} (h : Reachable g) : WF g := by
  induction h with
  | init t => exact wf_empty t
  | add g post _ ih => exact wf_add_post ih post
  | adds g posts _ ih => exact wf_add_posts ih posts
  | remove g pid _ ih => exact wf_remove_post ih pid

/-! ### Characterizing `get_cluster_keywords` -/

theorem mem_dKeys_dSet {α : Type} (d : Dict α) (k k₀ : String) (v : α) :
    k ∈ dKeys (dSet d k₀ v) ↔ k ∈ dKeys d ∨ k = k₀ := by
  by_cases hm : k₀ ∈ dKeys d
  · rw [dKeys_dSet_of_mem v hm]
    constructor
    · exact Or.inl
    · rintro (hk | rfl)
      · exact hk
      · exact hm
  · rw [dKeys_dSet_of_not_mem v hm]
    simp

theorem kwCount_fold_getD :
    ∀ (kws : List String) (counts : Dict Nat) (k : String),
      dGetD (kws.foldl kwCount counts) k 0
        = dGetD counts k 0 + kws.countP (fun w => decide (strLower w = k)) := by
  intro kws
  induction kws with
  | nil =>
    intro counts k
    simp
  | cons w ws ih =>
    intro counts k
    rw [List.foldl_cons, ih, List.countP_cons]
    by_cases hw : strLower w = k
    · have : dGetD (kwCount counts w) k 0 = dGetD counts k 0 + 1 := by
        rw [kwCount, hw, dGetD, dGet_dSet_self]
        rfl
      rw [this]
      simp [hw]
      omega
    · have : dGetD (kwCount counts w) k 0 = dGetD counts k 0 := by
        rw [kwCount, dGetD, dGet_dSet_ne _ _ _ _ (fun hh => hw hh.symm), dGetD]
      rw [this]
      simp [hw]

theorem kwCount_fold_keys :
    ∀ (kws : List String) (counts : Dict Nat) (k : String),
      k ∈ dKeys (kws.foldl kwCount counts)
        ↔ k ∈ dKeys counts ∨ ∃ w ∈ kws, strLower w = k := by
  intro kws
  induction kws with
  | nil =>
    intro counts k
    simp
  | cons w ws ih =>
    intro counts k
    rw [List.foldl_cons, ih, kwCount, mem_dKeys_dSet]
    constructor
    · rintro ((hk | rfl) | hk)
      · exact Or.inl hk
      · exact Or.inr ⟨w, List.mem_cons_self _ _, rfl⟩
      · obtain ⟨w', hw', he⟩ := hk
        exact Or.inr ⟨w', List.mem_cons_of_mem _ hw', he⟩
    · rintro (hk | ⟨w', hw', he⟩)
      · exact Or.inl (Or.inl hk)
      · rcases List.mem_cons.mp hw' with hw' | hw'
        · subst hw'
          exact Or.inl (Or.inr he.symm)
        · exact Or.inr ⟨w', hw', he⟩

theorem ckFold_getD (g : PostGraph) :
    ∀ (ids : List String) (counts : Dict Nat) (k : String),
      dGetD (ids.foldl (ckStep g) counts) k 0
        = dGetD counts k 0 + ((ids.filterMap (fun pid => dGet g.nodes pid)).map
            (fun post => post.matched_keywords.countP
              (fun w => decide (strLower w = k)))).sum := by
  intro ids
  induction ids with
  | nil =>
    intro counts k
    simp
  | cons pid rest ih =>
    intro counts k
    rw [List.foldl_cons]
    rcases hp : dGet g.nodes pid with _ | post
    · rw [show ckStep g counts pid = counts by rw [ckStep, hp]]
      rw [ih, List.filterMap_cons, hp]
    · rw [show ckStep g counts pid = post.matched_keywords.foldl kwCount counts by
        rw [ckStep, hp]]
      rw [ih, List.filterMap_cons, hp, kwCount_fold_getD]
      simp [Nat.add_assoc]

theorem ckFold_keys (g : PostGraph) :
    ∀ (ids : List String) (counts : Dict Nat) (k : String),
      k ∈ dKeys (ids.foldl (ckStep g) counts)
        ↔ k ∈ dKeys counts ∨ ∃ pid ∈ ids, ∃ post, dGet g.nodes pid = some post ∧
            ∃ w ∈ post.matched_keywords, strLower w = k := by
  intro ids
  induction ids with
  | nil =>
    intro counts k
    simp
  | cons pid rest ih =>
    intro counts k
    rw [List.foldl_cons]
    rcases hp : dGet g.nodes pid with _ | post
    · rw [show ckStep g counts pid = counts by rw [ckStep, hp]]
      rw [ih]
      constructor
      · rintro (hk | hk)
        · exact Or.inl hk
        · obtain ⟨pid', h1, h2⟩ := hk
          exact Or.inr ⟨pid', List.mem_cons_of_mem _ h1, h2⟩
      · rintro (hk | ⟨pid', h1, post', h2, h3⟩)
        · exact Or.inl hk
        · rcases List.mem_cons.mp h1 with h1 | h1
          · subst h1
            rw [hp] at h2
            exact Option.noConfusion h2
          · exact Or.inr ⟨pid', h1, post', h2, h3⟩
    · rw [show ckStep g counts pid = post.matched_keywords.foldl kwCount counts by
        rw [ckStep, hp]]
      rw [ih, kwCount_fold_keys]
      constructor
      · rintro ((hk | ⟨w, hw, he⟩) | ⟨pid', h1, post', h2, h3⟩)
        · exact Or.inl hk
        · exact Or.inr ⟨pid, List.mem_cons_self _ _, post, hp, w, hw, he⟩
        · exact Or.inr ⟨pid', List.mem_cons_of_mem _ h1, post', h2, h3⟩
      · rintro (hk | ⟨pid', h1, post', h2, h3⟩)
        · exact Or.inl (Or.inl hk)
        · rcases List.mem_cons.mp h1 with h1 | h1
          · subst h1
            rw [hp] at h2
            injection h2 with h2
            subst h2
            exact Or.inl (Or.inr h3)
          · exact Or.inr ⟨pid', h1, post', h2, h3⟩

theorem ckFold_skip_absent (g : PostGraph) :
    ∀ (ids : List String) (counts : Dict Nat),
      ids.foldl (ckStep g) counts
        = (ids.filter (fun pid => (dGet g.nodes pid).isSome)).foldl (ckStep g) counts := by
  intro ids
  induction ids with
  | nil =>
    intro counts
    rfl
  | cons pid rest ih =>
    intro counts
    rcases hp : dGet g.nodes pid with _ | post
    · rw [List.foldl_cons]
      rw [show ckStep g counts pid = counts by rw [ckStep, hp]]
      rw [List.filter_cons_of_neg (by simp [hp])]
      exact ih counts
    · rw [List.foldl_cons, List.filter_cons_of_pos (by simp [hp]), List.foldl_cons]
      exact ih _

/-! ### The claims -/

/-- C5: duplicate insert is an idempotent no-op.  When the post's id is
already present in the node table, `add_post` returns 0 and leaves the
entire graph state (node table, adjacency, keyword index — hence node
count and edge count) unchanged. -/
theorem claim_C5_duplicate_insert_noop (g : PostGraph) (post q : OSINTPost)
    (h : dGet g.nodes post.post_id = some q) : g.add_post post = (g, 0) :=
  add_post_of_mem (by rw [h]; rfl)

/-- Witness for C5: re-inserting id "A" (even with different keywords)
into a concrete one-post graph returns the very same state and 0. -/
theorem claim_C5_witness :
    (((PostGraph.empty 2).add_post (mkPost "A" ["mil", "drone"])).1).add_post
        (mkPost "A" ["storm"])
      = ((((PostGraph.empty 2).add_post (mkPost "A" ["mil", "drone"])).1), 0) :=
  claim_C5_duplicate_insert_noop _ _ (mkPost "A" ["mil", "drone"]) (by decide)

/-- C6: batch insertion is equivalent to sequential insertion.
`add_posts` produces exactly the final state of the same calls made one
at a time through `add_post` in list order, and the `edges_created` it
reports is the sum of the values those sequential calls return
(`addDocumentsSeq` is the sequential reference computation taken from
the spec's wording). -/
theorem claim_C6_batch_equals_sequential (g : PostGraph)
    (posts : List OSINTPost) :
    (g.add_posts posts).1 = (addDocumentsSeq g posts).1 ∧
    (g.add_posts posts).2.edges_created = (addDocumentsSeq g posts).2 :=
  add_posts_eq_seq g posts

/-- C7: operations referencing an unknown document id never raise and
return neutral results leaving the state unchanged: `remove_post` on an
absent id is a no-op, `get_neighbors` returns the empty list on an
absent id (and on a present-but-isolated id), and `get_shared_keywords`
is the empty set whenever either id is absent or no edge joins the
pair.  (All embedded operations are total functions, so "never raises"
holds by construction.) -/
theorem claim_C7_unknown_id_neutral (g : PostGraph) (hg : Reachable g) :
    (∀ pid, dGet g.nodes pid = none →
      g.remove_post pid = g ∧ g.get_neighbors pid = []) ∧
    (∀ pid, dGetD g.adj pid [] = [] → g.get_neighbors pid = []) ∧
    (∀ a b, dGet g.nodes a = none ∨ dGet g.nodes b = none ∨ getEdge g a b = none →
      g.get_shared_keywords a b = []) := by
  have h := reachable_wf hg
  refine ⟨?_, ?_, ?_⟩
  · intro pid hpid
    refine ⟨remove_post_of_absent hpid, ?_⟩
    have hadj := wf_adj_none h hpid
    rw [PostGraph.get_neighbors, dGetD, hadj]
    rfl
  · intro pid hiso
    rw [PostGraph.get_neighbors, hiso]
    rfl
  · intro a b hcase
    have hnone : getEdge g a b = none := by
      rcases hcase with ha | hb | he
      · rw [getEdge, dGetD, wf_adj_none h ha]
        rfl
      · rcases he : getEdge g a b with _ | e
        · rfl
        · obtain ⟨-, -, -, pa, pb, -, hpb, -⟩ := h.edge_sound a b e he
          rw [hb] at hpb
          exact Option.noConfusion hpb
      · exact he
    rw [PostGraph.get_shared_keywords, hnone]

/-- Witness for C7: removing the unknown id "Z" from a concrete
one-post graph is a no-op, and a shared-keyword query against "Z" is
empty. -/
theorem claim_C7_witness :
    ((((PostGraph.empty 2).add_post (mkPost "A" ["mil"])).1).remove_post "Z"
      = (((PostGraph.empty 2).add_post (mkPost "A" ["mil"])).1)) ∧
    (((PostGraph.empty 2).add_post (mkPost "A" ["mil"])).1).get_shared_keywords
      "A" "Z" = [] := by
  have h := claim_C7_unknown_id_neutral
    (((PostGraph.empty 2).add_post (mkPost "A" ["mil"])).1)
    (Reachable.add _ _ (Reachable.init 2))
  exact ⟨(h.1 "Z" (by decide)).1, h.2.2 "A" "Z" (Or.inr (Or.inl (by decide)))⟩

/-- C10: `get_cluster_keywords` silently skips listed ids that are not
in the node table (it never raises — the embedding is a total function),
and the returned map is the keyword-frequency count over only the
present listed documents, one count per (lowercased) carried keyword
occurrence. -/
theorem claim_C10_cluster_keywords_skip_absent (g : PostGraph)
    (ids : List String) :
    g.get_cluster_keywords ids
      = g.get_cluster_keywords (ids.filter (fun pid => (dGet g.nodes pid).isSome)) ∧
    ∀ k, dGetD (g.get_cluster_keywords ids) k 0
      = ((ids.filterMap (fun pid => dGet g.nodes pid)).map
          (fun post => post.matched_keywords.countP
            (fun w => decide (strLower w = k)))).sum := by
  constructor
  · rw [PostGraph.get_cluster_keywords, PostGraph.get_cluster_keywords]
    exact ckFold_skip_absent g ids []
  · intro k
    rw [PostGraph.get_cluster_keywords, ckFold_getD g ids [] k]
    simp [dGetD, dGet]

/-- C2: every graph state reachable by any sequence of `add_post`,
`add_posts` and `remove_post` calls is well-formed: the adjacency is
symmetric with identical edge contents, there are no self-loops and at
most one slot per unordered pair (adjacency keys and each slot's
neighbor keys are duplicate-free), and every stored edge's
shared-keyword set is exactly the intersection of its endpoints'
normalized (lowercased, deduplicated) keyword sets, of size ≥ T — for
documents supplied with already-normalized keywords `kwSet` is exactly
the carried keyword set. -/
theorem claim_C2_reachable_well_formed (g : PostGraph) (hg : Reachable g) :
    (∀ a b, getEdge g a b = getEdge g b a) ∧
    (∀ a, getEdge g a a = none) ∧
    (dKeys g.adj).Nodup ∧
    (∀ pid inner, dGet g.adj pid = some inner → (dKeys inner).Nodup) ∧
    (∀ a b e, getEdge g a b = some e →
      ∃ pa pb, dGet g.nodes a = some pa ∧ dGet g.nodes b = some pb ∧
        (∀ k, k ∈ e.shared_keywords ↔ k ∈ interList (kwSet pa) (kwSet pb)) ∧
        e.weight = (interList (kwSet pa) (kwSet pb)).length ∧
        g.min_shared_keywords ≤ (e.weight : Int)) := by
  have h := reachable_wf hg
  refine ⟨h.edge_symm, ?_, ?_, h.inner_nodup, ?_⟩
  · intro a
    rcases he : getEdge g a a with _ | e
    · rfl
    · obtain ⟨hne, -⟩ := h.edge_sound a a e he
      exact absurd rfl hne
  · rw [h.adj_keys]
    exact h.nodes_nodup
  · intro a b e he
    obtain ⟨hne, hnil, hnd, pa, pb, hpa, hpb, hmem, hlen⟩ := h.edge_sound a b e he
    refine ⟨pa, pb, hpa, hpb, fun k => by rw [hmem k, mem_interList], ?_, hlen⟩
    exact length_eq_of_nodup_of_mem_iff hnd
      (interList_nodup _ (kwSet_nodup pa))
      (fun k => by rw [hmem k, mem_interList])

/-- Witness for C2 at the spec's concrete scenario graph (T = 2, posts
A, B, C): adjacency is symmetric between "A" and "B" and there is no
self-loop at "A". -/
theorem claim_C2_witness :
    (getEdge (((((PostGraph.empty 2).add_post
        (mkPost "A" ["mil", "drone", "night"])).1.add_post
        (mkPost "B" ["mil", "drone"])).1.add_post
        (mkPost "C" ["drone", "night", "storm"])).1) "A" "B"
      = getEdge (((((PostGraph.empty 2).add_post
        (mkPost "A" ["mil", "drone", "night"])).1.add_post
        (mkPost "B" ["mil", "drone"])).1.add_post
        (mkPost "C" ["drone", "night", "storm"])).1) "B" "A") ∧
    getEdge (((((PostGraph.empty 2).add_post
        (mkPost "A" ["mil", "drone", "night"])).1.add_post
        (mkPost "B" ["mil", "drone"])).1.add_post
        (mkPost "C" ["drone", "night", "storm"])).1) "A" "A" = none := by
  have h := claim_C2_reachable_well_formed
    (((((PostGraph.empty 2).add_post
        (mkPost "A" ["mil", "drone", "night"])).1.add_post
        (mkPost "B" ["mil", "drone"])).1.add_post
        (mkPost "C" ["drone", "night", "storm"])).1)
    (Reachable.add _ _ (Reachable.add _ _ (Reachable.add _ _ (Reachable.init 2))))
  exact ⟨h.1 "A" "B", h.2.1 "A"⟩

/-- C1 counterexample: with threshold T = 0 and two inserted documents
with disjoint keyword sets, the intersection (empty, size 0 ≥ T) meets
the threshold, yet no edge exists — candidate discovery goes through the
inverted keyword index, so documents sharing no keyword never connect.
This refutes the claim's "with T ≤ 0 every pair of inserted documents is
connected" (and its unrestricted "edge iff intersection size ≥ T"). -/
theorem claim_C1_counterexample :
    (dGet ((((PostGraph.empty 0).add_post (mkPost "A" ["alpha"])).1.add_post
      (mkPost "B" ["beta"])).1).nodes "A").isSome ∧
    (dGet ((((PostGraph.empty 0).add_post (mkPost "A" ["alpha"])).1.add_post
      (mkPost "B" ["beta"])).1).nodes "B").isSome ∧
    ((((PostGraph.empty 0).add_post (mkPost "A" ["alpha"])).1.add_post
      (mkPost "B" ["beta"])).1).min_shared_keywords
      ≤ (((interList (kwSet (mkPost "A" ["alpha"]))
          (kwSet (mkPost "B" ["beta"]))).length : Int)) ∧
    getEdge ((((PostGraph.empty 0).add_post (mkPost "A" ["alpha"])).1.add_post
      (mkPost "B" ["beta"])).1) "A" "B" = none := by
  decide

/-- C1 (amended): in every reachable state, for every pair of distinct
present documents an edge exists iff their normalized keyword sets share
at least one keyword *and* the intersection size meets the threshold
T — so for T ≤ 0 exactly the pairs sharing ≥ 1 keyword are connected,
not all pairs — independently of insertion order; and when the edge
exists its shared-keyword set is exactly the intersection and its weight
the intersection's size. -/
theorem claim_C1_amended_edge_iff_shared_threshold (g : PostGraph)
    (hg : Reachable g) (a b : String) (pa pb : OSINTPost) (hne : a ≠ b)
    (ha : dGet g.nodes a = some pa) (hb : dGet g.nodes b = some pb) :
    ((getEdge g a b).isSome ↔
      interList (kwSet pa) (kwSet pb) ≠ [] ∧
      g.min_shared_keywords ≤ ((interList (kwSet pa) (kwSet pb)).length : Int)) ∧
    (∀ e, getEdge g a b = some e →
      (∀ k, k ∈ e.shared_keywords ↔ k ∈ interList (kwSet pa) (kwSet pb)) ∧
      e.weight = (interList (kwSet pa) (kwSet pb)).length) := by
  have h := reachable_wf hg
  have hsound : ∀ e, getEdge g a b = some e →
      (∀ k, k ∈ e.shared_keywords ↔ k ∈ interList (kwSet pa) (kwSet pb)) ∧
      e.shared_keywords ≠ [] ∧ e.shared_keywords.Nodup ∧
      g.min_shared_keywords ≤ (e.shared_keywords.length : Int) := by
    intro e he
    obtain ⟨-, hnil, hnd, pa', pb', hpa', hpb', hmem, hlen⟩ := h.edge_sound a b e he
    rw [ha] at hpa'
    injection hpa' with hpa'
    rw [hb] at hpb'
    injection hpb' with hpb'
    subst hpa'
    subst hpb'
    exact ⟨fun k => by rw [hmem k, mem_interList], hnil, hnd, hlen⟩
  constructor
  · constructor
    · intro hs
      obtain ⟨e, he⟩ := Option.isSome_iff_exists.mp hs
      obtain ⟨hmem, hnil, hnd, hlen⟩ := hsound e he
      have hlene : e.shared_keywords.length
          = (interList (kwSet pa) (kwSet pb)).length :=
        length_eq_of_nodup_of_mem_iff hnd
          (interList_nodup _ (kwSet_nodup pa)) hmem
      refine ⟨?_, by rw [← hlene]; exact hlen⟩
      obtain ⟨k₀, hk₀⟩ := List.exists_mem_of_ne_nil _ hnil
      exact List.ne_nil_of_mem ((hmem k₀).mp hk₀)
    · rintro ⟨hnil, hlen⟩
      exact h.edge_complete a b pa pb hne ha hb hnil hlen
  · intro e he
    obtain ⟨hmem, hnil, hnd, hlen⟩ := hsound e he
    exact ⟨hmem, length_eq_of_nodup_of_mem_iff hnd
      (interList_nodup _ (kwSet_nodup pa)) hmem⟩

/-- Witness for the amended C1 at the spec scenario (T = 2): "A" and
"B" share {mil, drone}, so the edge exists. -/
theorem claim_C1_witness :
    (getEdge ((((PostGraph.empty 2).add_post
        (mkPost "A" ["mil", "drone", "night"])).1.add_post
        (mkPost "B" ["mil", "drone"])).1) "A" "B").isSome := by
  have h := claim_C1_amended_edge_iff_shared_threshold
    ((((PostGraph.empty 2).add_post
        (mkPost "A" ["mil", "drone", "night"])).1.add_post
        (mkPost "B" ["mil", "drone"])).1)
    (Reachable.add _ _ (Reachable.add _ _ (Reachable.init 2)))
    "A" "B" (mkPost "A" ["mil", "drone", "night"]) (mkPost "B" ["mil", "drone"])
    (by decide) (by decide) (by decide)
  exact h.1.mpr (by decide)

/-- C8 counterexample: a document carrying the keyword "MIL" yields the
cluster-keyword key "mil" — a string the document does not carry — and
no key "MIL", so the core does apply case folding, refuting "the keyword
strings … are exactly the strings carried in the documents' keyword
sets, unchanged (no case folding …)". -/
theorem claim_C8_counterexample :
    dGet ((((PostGraph.empty 2).add_post (mkPost "A" ["MIL"])).1).get_cluster_keywords
      ["A"]) "mil" = some 1 ∧
    ("mil" ∉ (mkPost "A" ["MIL"]).matched_keywords) ∧
    dGet ((((PostGraph.empty 2).add_post (mkPost "A" ["MIL"])).1).get_cluster_keywords
      ["A"]) "MIL" = none := by
  decide

/-- C8 (amended): the only transformation the core applies to keyword
strings is lowercasing (no stemming or fuzzy matching): every keyword in
a stored edge's shared set (as returned by `get_shared_keywords`) is the
lowercasing of a keyword carried by each endpoint, and the keys of
`get_cluster_keywords` are exactly the lowercasings of keywords carried by
the listed present documents.  For documents whose keywords are already
lowercase the strings are carried through unchanged. -/
theorem claim_C8_amended_lowercase_only (g : PostGraph) (hg : Reachable g) :
    (∀ a b k, k ∈ g.get_shared_keywords a b →
      (∃ pa, dGet g.nodes a = some pa ∧ ∃ w ∈ pa.matched_keywords, strLower w = k) ∧
      (∃ pb, dGet g.nodes b = some pb ∧ ∃ w ∈ pb.matched_keywords, strLower w = k)) ∧
    (∀ ids k, k ∈ dKeys (g.get_cluster_keywords ids) ↔
      ∃ pid ∈ ids, ∃ post, dGet g.nodes pid = some post ∧
        ∃ w ∈ post.matched_keywords, strLower w = k) := by
  have h := reachable_wf hg
  constructor
  · intro a b k hk
    rcases he : getEdge g a b with _ | e
    · rw [PostGraph.get_shared_keywords, he] at hk
      simp at hk
    · rw [PostGraph.get_shared_keywords, he] at hk
      obtain ⟨-, -, -, pa, pb, hpa, hpb, hmem, -⟩ := h.edge_sound a b e he
      obtain ⟨hk1, hk2⟩ := (hmem k).mp hk
      rw [mem_kwSet] at hk1 hk2
      exact ⟨⟨pa, hpa, hk1⟩, ⟨pb, hpb, hk2⟩⟩
  · intro ids k
    rw [PostGraph.get_cluster_keywords, ckFold_keys g ids [] k]
    simp [dKeys_nil]

/-- Witness for the amended C8: in a concrete reachable graph, "mil" is
a cluster-keyword key and is the lowercasing of the carried "MIL". -/
theorem claim_C8_witness :
    "mil" ∈ dKeys ((((PostGraph.empty 2).add_post
      (mkPost "A" ["MIL"])).1).get_cluster_keywords ["A"]) := by
  have h := claim_C8_amended_lowercase_only
    (((PostGraph.empty 2).add_post (mkPost "A" ["MIL"])).1)
    (Reachable.add _ _ (Reachable.init 2))
  exact (h.2 ["A"] "mil").mpr
    ⟨"A", by decide, mkPost "A" ["MIL"], by decide, "MIL", by decide, by decide⟩

/-! ### Stable descending sort lemmas -/

theorem insertKeyDesc_perm {α : Type} (key : α → Nat) (x : α) :
    ∀ (l : List α), List.Perm (insertKeyDesc key x l) (x :: l) := by
  intro l
  induction l with
  | nil => exact List.Perm.refl _
  | cons y ys ih =>
    rw [insertKeyDesc]
    by_cases h : key x ≤ key y
    · rw [if_pos h]
      exact (ih.cons y).trans (List.Perm.swap x y ys)
    · rw [if_neg h]

theorem mem_insertKeyDesc {α : Type} (key : α → Nat) (x : α) (l : List α)
    (z : α) : z ∈ insertKeyDesc key x l ↔ z = x ∨ z ∈ l := by
  rw [(insertKeyDesc_perm key x l).mem_iff]
  exact List.mem_cons

theorem sortByKeyDesc_perm_aux {α : Type} (key : α → Nat) :
    ∀ (l acc : List α),
      List.Perm (l.foldl (fun acc x => insertKeyDesc key x acc) acc) (acc ++ l) := by
  intro l
  induction l with
  | nil => intro acc; simp
  | cons x xs ih =>
    intro acc
    rw [List.foldl_cons]
    refine (ih (insertKeyDesc key x acc)).trans ?_
    refine (List.Perm.append_right xs (insertKeyDesc_perm key x acc)).trans ?_
    exact List.perm_middle.symm

theorem sortByKeyDesc_perm {α : Type} (key : α → Nat) (l : List α) :
    List.Perm (sortByKeyDesc key l) l := by
  rw [sortByKeyDesc]
  have := sortByKeyDesc_perm_aux key l []
  rw [List.nil_append] at this
  exact this

theorem insertKeyDesc_pairwise {α : Type} (key : α → Nat)
    (R : α → α → Prop) (hRkey : ∀ a b, R a b → key b ≤ key a) (x : α) :
    ∀ (l : List α), l.Pairwise R →
      (∀ y ∈ l, (key y < key x → R x y) ∧ (key x ≤ key y → R y x)) →
      (insertKeyDesc key x l).Pairwise R := by
  intro l
  induction l with
  | nil =>
    intro _ _
    simp [insertKeyDesc]
  | cons y ys ih =>
    intro hl hx
    rw [List.pairwise_cons] at hl
    rw [insertKeyDesc]
    by_cases h : key x ≤ key y
    · rw [if_pos h]
      rw [List.pairwise_cons]
      constructor
      · intro z hz
        rcases (mem_insertKeyDesc key x ys z).mp hz with hze | hz
        · rw [hze]
          exact (hx y (List.mem_cons_self _ _)).2 h
        · exact hl.1 z hz
      · exact ih hl.2 (fun z hz => hx z (List.mem_cons_of_mem _ hz))
    · rw [if_neg h]
      rw [List.pairwise_cons]
      constructor
      · intro z hz
        rcases List.mem_cons.mp hz with hze | hz
        · rw [hze]
          exact (hx y (List.mem_cons_self _ _)).1 (Nat.lt_of_not_le h)
        · have hzy : key z ≤ key y := hRkey y z (hl.1 z hz)
          exact (hx z (List.mem_cons_of_mem _ hz)).1
            (Nat.lt_of_le_of_lt hzy (Nat.lt_of_not_le h))
      · exact List.pairwise_cons.mpr hl

theorem sortByKeyDesc_pairwise_aux {α : Type} (key idx : α → Nat) :
    ∀ (l acc : List α),
      acc.Pairwise (fun a b => key b ≤ key a ∧ (key a = key b → idx a < idx b)) →
      (∀ a ∈ acc, ∀ b ∈ l, idx a < idx b) →
      l.Pairwise (fun a b => idx a < idx b) →
      (l.foldl (fun acc x => insertKeyDesc key x acc) acc).Pairwise
        (fun a b => key b ≤ key a ∧ (key a = key b → idx a < idx b)) := by
  intro l
  induction l with
  | nil =>
    intro acc hacc _ _
    exact hacc
  | cons x xs ih =>
    intro acc hacc hcross hl
    rw [List.pairwise_cons] at hl
    rw [List.foldl_cons]
    refine ih (insertKeyDesc key x acc) ?_ ?_ hl.2
    · refine insertKeyDesc_pairwise key _ (fun a b hab => hab.1) x acc hacc ?_
      intro y hy
      have hyx : idx y < idx x := hcross y hy x (List.mem_cons_self _ _)
      constructor
      · intro hk
        exact ⟨Nat.le_of_lt hk, fun he => absurd he.symm (Nat.ne_of_lt hk)⟩
      · intro hk
        exact ⟨hk, fun _ => hyx⟩
    · intro a ha b hb
      rcases (mem_insertKeyDesc key x acc a).mp ha with hae | ha
      · rw [hae]
        exact hl.1 b hb
      · exact hcross a ha b (List.mem_cons_of_mem _ hb)

theorem sortByKeyDesc_pairwise {α : Type} (key idx : α → Nat) (l : List α)
    (hl : l.Pairwise (fun a b => idx a < idx b)) :
    (sortByKeyDesc key l).Pairwise
      (fun a b => key b ≤ key a ∧ (key a = key b → idx a < idx b)) := by
  rw [sortByKeyDesc]
  exact sortByKeyDesc_pairwise_aux key idx l [] (by simp) (by simp) hl

/-! ### Node insertion rank -/

theorem posOf_keys_increasing :
    ∀ (keys : List String), keys.Nodup →
      keys.Pairwise (fun a b => posOf keys a < posOf keys b) := by
  intro keys
  induction keys with
  | nil => intro _; simp
  | cons k rest ih =>
    intro hnd
    rw [List.nodup_cons] at hnd
    rw [List.pairwise_cons]
    constructor
    · intro b hb
      have hbk : ¬(k = b) := fun he => hnd.1 (he ▸ hb)
      rw [posOf, if_pos rfl, posOf, if_neg hbk]
      exact Nat.succ_pos _
    · refine List.Pairwise.imp_of_mem ?_ (ih hnd.2)
      intro a b ha hb hab
      have hak : ¬(k = a) := fun he => hnd.1 (he ▸ ha)
      have hbk : ¬(k = b) := fun he => hnd.1 (he ▸ hb)
      rw [posOf, if_neg hak, posOf, if_neg hbk]
      omega

/-- C9 counterexample: Python slicing with a negative limit keeps all
but the last |limit| entries, so on a concrete two-node graph
`get_most_connected (-1)` returns one pair — more than "at most N = -1
pairs". -/
theorem claim_C9_counterexample :
    ((((PostGraph.empty 2).add_post (mkPost "A" ["mil"])).1.add_post
        (mkPost "B" ["beta"])).1).get_most_connected (-1)
      = [(mkPost "A" ["mil"], 0)] ∧
    ¬ ((((((PostGraph.empty 2).add_post (mkPost "A" ["mil"])).1.add_post
        (mkPost "B" ["beta"])).1).get_most_connected (-1)).length : Int) ≤ -1 := by
  decide

/-- C9 (amended): for every reachable graph state and every limit
N ≥ 0 (negative limits follow Python slice semantics instead, see the
counterexample), `get_most_connected` returns at most N pairs, each
pairing a current document with exactly the size of its adjacency
entry, sorted by degree descending with ties broken by node insertion
rank. -/
theorem claim_C9_amended_most_connected (g : PostGraph) (hg : Reachable g)
    (n : Int) (hn : 0 ≤ n) :
    (((g.get_most_connected n).length : Int) ≤ n) ∧
    (∀ pr ∈ g.get_most_connected n,
      dGet g.nodes pr.1.post_id = some pr.1 ∧
      (dGetD g.adj pr.1.post_id []).length = pr.2) ∧
    (g.get_most_connected n).Pairwise (fun a b => b.2 ≤ a.2 ∧
      (a.2 = b.2 → posOf (dKeys g.nodes) a.1.post_id
        < posOf (dKeys g.nodes) b.1.post_id)) := by
  have h := reachable_wf hg
  have hadjnd : (dKeys g.adj).Nodup := by
    rw [h.adj_keys]
    exact h.nodes_nodup
  have hitem : ∀ pr, pr ∈ g.adj.filterMap (fun e =>
      (dGet g.nodes e.1).map (fun p => (p, e.2.length))) →
      dGet g.nodes pr.1.post_id = some pr.1 ∧
      (dGetD g.adj pr.1.post_id []).length = pr.2 := by
    intro pr hpr
    rw [List.mem_filterMap] at hpr
    obtain ⟨e, he, hfe⟩ := hpr
    rcases hge : dGet g.nodes e.1 with _ | p
    · rw [hge] at hfe
      exact Option.noConfusion hfe
    · rw [hge] at hfe
      injection hfe with hfe
      have hid : p.post_id = e.1 := h.nodes_ids e.1 p hge
      have hpr1 : pr.1 = p := by rw [← hfe]
      have hpr2 : pr.2 = e.2.length := by rw [← hfe]
      constructor
      · rw [hpr1, hid, hge]
      · rw [hpr1, hid, hpr2, dGetD, dGet_of_mem_of_nodup hadjnd he]
        rfl
  have hpairs : (g.adj.filterMap (fun e =>
      (dGet g.nodes e.1).map (fun p => (p, e.2.length)))).Pairwise
      (fun a b => posOf (dKeys g.nodes) a.1.post_id
        < posOf (dKeys g.nodes) b.1.post_id) := by
    have hkeys := posOf_keys_increasing (dKeys g.adj) hadjnd
    have hadj : g.adj.Pairwise (fun e1 e2 =>
        posOf (dKeys g.adj) e1.1 < posOf (dKeys g.adj) e2.1) := by
      have h2 : (g.adj.map Prod.fst).Pairwise
          (fun a b => posOf (dKeys g.adj) a < posOf (dKeys g.adj) b) := by
        rw [← dKeys]
        exact hkeys
      rw [List.pairwise_map] at h2
      exact h2
    refine List.Pairwise.filterMap _ ?_ hadj
    intro e1 e2 h12 c hc d hd
    rcases hg1 : dGet g.nodes e1.1 with _ | p1
    · rw [hg1] at hc
      simp at hc
    · rcases hg2 : dGet g.nodes e2.1 with _ | p2
      · rw [hg2] at hd
        simp at hd
      · rw [hg1] at hc
        rw [hg2] at hd
        simp at hc hd
        rw [← hc, ← hd]
        have h1 : p1.post_id = e1.1 := h.nodes_ids e1.1 p1 hg1
        have h2 : p2.post_id = e2.1 := h.nodes_ids e2.1 p2 hg2
        rw [h1, h2, ← h.adj_keys]
        exact h12
  have hsorted := sortByKeyDesc_pairwise (fun pr : OSINTPost × Nat => pr.2)
    (fun pr : OSINTPost × Nat => posOf (dKeys g.nodes) pr.1.post_id) _ hpairs
  have hperm := sortByKeyDesc_perm (fun (pr : OSINTPost × Nat) => pr.2)
    (g.adj.filterMap (fun e => (dGet g.nodes e.1).map (fun p => (p, e.2.length))))
  have hslice : g.get_most_connected n
      = (sortByKeyDesc (fun pr : OSINTPost × Nat => pr.2)
          (g.adj.filterMap (fun e =>
            (dGet g.nodes e.1).map (fun p => (p, e.2.length))))).take n.toNat := by
    show pySliceTo (sortByKeyDesc (fun pr : OSINTPost × Nat => pr.2)
      (g.adj.filterMap (fun e =>
        (dGet g.nodes e.1).map (fun p => (p, e.2.length))))) n = _
    rw [pySliceTo, if_pos hn]
  refine ⟨?_, ?_, ?_⟩
  · rw [hslice]
    have := List.length_take_le n.toNat (sortByKeyDesc (fun pr : OSINTPost × Nat => pr.2)
      (g.adj.filterMap (fun e => (dGet g.nodes e.1).map (fun p => (p, e.2.length)))))
    omega
  · intro pr hpr
    rw [hslice] at hpr
    have hmem : pr ∈ sortByKeyDesc (fun pr : OSINTPost × Nat => pr.2)
        (g.adj.filterMap (fun e =>
          (dGet g.nodes e.1).map (fun p => (p, e.2.length)))) :=
      List.mem_of_mem_take hpr
    exact hitem pr (hperm.mem_iff.mp hmem)
  · rw [hslice]
    exact hsorted.sublist (List.take_sublist _ _)

/-- Witness for the amended C9 on the spec scenario graph (T = 2) with
limit 1. -/
theorem claim_C9_witness :
    ((((((PostGraph.empty 2).add_post
        (mkPost "A" ["mil", "drone", "night"])).1.add_post
        (mkPost "B" ["mil", "drone"])).1.add_post
        (mkPost "C" ["drone", "night", "storm"])).1).get_most_connected 1).length ≤ 1 := by
  have h := claim_C9_amended_most_connected
    (((((PostGraph.empty 2).add_post
        (mkPost "A" ["mil", "drone", "night"])).1.add_post
        (mkPost "B" ["mil", "drone"])).1.add_post
        (mkPost "C" ["drone", "night", "storm"])).1)
    (Reachable.add _ _ (Reachable.add _ _ (Reachable.add _ _ (Reachable.init 2))))
    1 (by omega)
  have h1 := h.1
  omega

theorem bool_eq_of_iff {a b : Bool} (h : a = true ↔ b = true) : a = b := by
  cases a <;> cases b <;> simp_all

/-! ### Support for the remove/re-insert round trip -/

theorem add_post_nodes_of_new {g : PostGraph} {post : OSINTPost}
    (hnew : dGet g.nodes post.post_id = none) :
    (g.add_post post).1.nodes = dSet g.nodes post.post_id post := by
  rw [PostGraph.add_post, if_neg (by simp [hnew])]

theorem add_post_T (g : PostGraph) (post : OSINTPost) :
    (g.add_post post).1.min_shared_keywords = g.min_shared_keywords := by
  by_cases hd : (dGet g.nodes post.post_id).isSome
  · rw [add_post_of_mem hd]
  · rw [PostGraph.add_post, if_neg hd]

theorem remove_post_T (g : PostGraph) (pid : String) :
    (g.remove_post pid).min_shared_keywords = g.min_shared_keywords := by
  rcases hp : dGet g.nodes pid with _ | post
  · rw [remove_post_of_absent hp]
  · rw [remove_post_eq hp]

theorem addDocumentsSeq_T : ∀ (posts : List OSINTPost) (g : PostGraph),
    (addDocumentsSeq g posts).1.min_shared_keywords = g.min_shared_keywords := by
  intro posts
  induction posts with
  | nil => intro g; rfl
  | cons p ps ih =>
    intro g
    rw [show (addDocumentsSeq g (p :: ps)).1
      = (addDocumentsSeq (g.add_post p).1 ps).1 from rfl]
    rw [ih, add_post_T]

theorem reachable_addDocumentsSeq : ∀ (posts : List OSINTPost) (g : PostGraph),
    Reachable g → Reachable (addDocumentsSeq g posts).1 := by
  intro posts
  induction posts with
  | nil => intro g h; exact h
  | cons p ps ih =>
    intro g h
    exact ih (g.add_post p).1 (Reachable.add g p h)

theorem addDocumentsSeq_nodes : ∀ (posts : List OSINTPost) (g : PostGraph),
    (∀ p ∈ posts, dGet g.nodes p.post_id = none) →
    (posts.map (fun p => p.post_id)).Nodup →
    (addDocumentsSeq g posts).1.nodes
      = g.nodes ++ posts.map (fun p => (p.post_id, p)) := by
  intro posts
  induction posts with
  | nil =>
    intro g _ _
    simp [addDocumentsSeq]
  | cons p ps ih =>
    intro g hnone hnd
    rw [List.map_cons, List.nodup_cons] at hnd
    have hpnew : dGet g.nodes p.post_id = none := hnone p (List.mem_cons_self _ _)
    have hpkeys : p.post_id ∉ dKeys g.nodes := (dGet_eq_none_iff _ _).mp hpnew
    have hnodes1 : (g.add_post p).1.nodes = g.nodes ++ [(p.post_id, p)] := by
      rw [add_post_nodes_of_new hpnew, dSet_of_not_mem _ hpkeys]
    rw [show (addDocumentsSeq g (p :: ps)).1
      = (addDocumentsSeq (g.add_post p).1 ps).1 from rfl]
    rw [ih (g.add_post p).1 ?_ hnd.2, hnodes1, List.append_assoc]
    · rfl
    · intro q hq
      rw [hnodes1, dGet_append]
      rw [hnone q (List.mem_cons_of_mem _ hq)]
      have hqp : ¬(p.post_id = q.post_id) := by
        intro he
        exact hnd.1 (he ▸ List.mem_map_of_mem (fun r => r.post_id) hq)
      rw [dGet, if_neg hqp]
      rfl

theorem dErase_of_not_mem {α : Type} {d : Dict α} {k : String}
    (h : k ∉ dKeys d) : dErase d k = d := by
  rw [dErase]
  apply List.filter_eq_self.mpr
  intro e he
  simp only [decide_eq_true_eq]
  intro hek
  exact h (hek ▸ (mem_dKeys _ _).mpr ⟨e.2, by
    rcases e with ⟨k₀, v₀⟩
    exact he⟩)

theorem remove_post_nodes (g : PostGraph) (pid : String) :
    (g.remove_post pid).nodes = dErase g.nodes pid := by
  rcases hp : dGet g.nodes pid with _ | post
  · rw [remove_post_of_absent hp, dErase_of_not_mem ((dGet_eq_none_iff _ _).mp hp)]
  · rw [remove_post_eq hp]

theorem dErase_map_pair {l : List OSINTPost} {x : String}
    (h : ∀ p ∈ l, p.post_id ≠ x) :
    dErase (l.map (fun p => (p.post_id, p))) x = l.map (fun p => (p.post_id, p)) := by
  rw [dErase]
  apply List.filter_eq_self.mpr
  intro e he
  rw [List.mem_map] at he
  obtain ⟨p, hp, rfl⟩ := he
  simp only [decide_eq_true_eq]
  exact h p hp

theorem wf_isSome_iff {g : PostGraph} (h : WF g) (a b : String) :
    (getEdge g a b).isSome ↔ ∃ pa pb, a ≠ b ∧ dGet g.nodes a = some pa ∧
      dGet g.nodes b = some pb ∧ interList (kwSet pa) (kwSet pb) ≠ [] ∧
      g.min_shared_keywords ≤ ((interList (kwSet pa) (kwSet pb)).length : Int) := by
  constructor
  · intro hs
    obtain ⟨e, he⟩ := Option.isSome_iff_exists.mp hs
    obtain ⟨hne, hnil, hnd, pa, pb, hpa, hpb, hmem, hlen⟩ := h.edge_sound a b e he
    have hmem' : ∀ k, k ∈ e.shared_keywords ↔ k ∈ interList (kwSet pa) (kwSet pb) :=
      fun k => by rw [hmem k, mem_interList]
    have hlene := length_eq_of_nodup_of_mem_iff hnd
      (interList_nodup _ (kwSet_nodup pa)) hmem'
    refine ⟨pa, pb, hne, hpa, hpb, ?_, ?_⟩
    · obtain ⟨k₀, hk₀⟩ := List.exists_mem_of_ne_nil _ hnil
      exact List.ne_nil_of_mem ((hmem' k₀).mp hk₀)
    · rw [← hlene]
      exact hlen
  · rintro ⟨pa, pb, hne, hpa, hpb, hnil, hlen⟩
    exact h.edge_complete a b pa pb hne hpa hpb hnil hlen

theorem wf_shared_mem {g : PostGraph} (h : WF g) (a b k : String) :
    k ∈ g.get_shared_keywords a b ↔ ∃ pa pb, a ≠ b ∧ dGet g.nodes a = some pa ∧
      dGet g.nodes b = some pb ∧ k ∈ kwSet pa ∧ k ∈ kwSet pb ∧
      g.min_shared_keywords ≤ ((interList (kwSet pa) (kwSet pb)).length : Int) := by
  constructor
  · intro hk
    rcases he : getEdge g a b with _ | e
    · rw [PostGraph.get_shared_keywords, he] at hk
      simp at hk
    · rw [PostGraph.get_shared_keywords, he] at hk
      obtain ⟨hne, hnil, hnd, pa, pb, hpa, hpb, hmem, hlen⟩ := h.edge_sound a b e he
      have hmem' : ∀ k, k ∈ e.shared_keywords ↔ k ∈ interList (kwSet pa) (kwSet pb) :=
        fun k => by rw [hmem k, mem_interList]
      have hlene := length_eq_of_nodup_of_mem_iff hnd
        (interList_nodup _ (kwSet_nodup pa)) hmem'
      obtain ⟨hk1, hk2⟩ := (hmem k).mp hk
      refine ⟨pa, pb, hne, hpa, hpb, hk1, hk2, ?_⟩
      rw [← hlene]
      exact hlen
  · rintro ⟨pa, pb, hne, hpa, hpb, hk1, hk2, hlen⟩
    have hnil : interList (kwSet pa) (kwSet pb) ≠ [] :=
      List.ne_nil_of_mem ((mem_interList _ _ _).mpr ⟨hk1, hk2⟩)
    have hs := h.edge_complete a b pa pb hne hpa hpb hnil hlen
    obtain ⟨e, he⟩ := Option.isSome_iff_exists.mp hs
    rw [PostGraph.get_shared_keywords, he]
    obtain ⟨-, -, -, pa', pb', hpa', hpb', hmem, -⟩ := h.edge_sound a b e he
    rw [hpa] at hpa'
    injection hpa' with hpa'
    rw [hpb] at hpb'
    injection hpb' with hpb'
    subst hpa'
    subst hpb'
    exact (hmem k).mpr ⟨hk1, hk2⟩

theorem dKeys_map_pair (l : List OSINTPost) :
    dKeys (l.map (fun p => (p.post_id, p))) = l.map (fun p => p.post_id) := by
  simp [dKeys, List.map_map, Function.comp]

theorem dErase_map_pair_middle (front back : List OSINTPost) (d : OSINTPost)
    (hf : ∀ p ∈ front, p.post_id ≠ d.post_id)
    (hb : ∀ p ∈ back, p.post_id ≠ d.post_id) :
    dErase (((front ++ [d]) ++ back).map (fun p => (p.post_id, p))) d.post_id
      = (front ++ back).map (fun p => (p.post_id, p)) := by
  rw [dErase, List.map_append, List.map_append, List.filter_append,
    List.filter_append]
  have h1 := dErase_map_pair hf
  rw [dErase] at h1
  have h3 := dErase_map_pair hb
  rw [dErase] at h3
  have h2 : (([d] : List OSINTPost).map (fun p => (p.post_id, p))).filter
      (fun e => decide (e.1 ≠ d.post_id)) = [] := by
    simp
  rw [h1, h2, h3, List.append_nil, ← List.map_append]

/-- C3: removal is a true inverse of insertion.  Insert a sequence of
documents with distinct ids, remove one of them, and re-insert the
identical document: the node table coincides with the one obtained by
inserting that document last, edge existence coincides for every pair
of ids, and the shared-keyword set of every pair coincides — i.e.
re-inserting an id after removal behaves as a pristine fresh insert. -/
theorem claim_C3_remove_reinsert (T : Int) (front back : List OSINTPost)
    (d : OSINTPost)
    (hids : (((front ++ [d]) ++ back).map (fun p => p.post_id)).Nodup) :
    ((((addDocumentsSeq (PostGraph.empty T)
          ((front ++ [d]) ++ back)).1.remove_post d.post_id).add_post d).1.nodes
      = (addDocumentsSeq (PostGraph.empty T) ((front ++ back) ++ [d])).1.nodes) ∧
    (∀ a b,
      (getEdge ((((addDocumentsSeq (PostGraph.empty T)
          ((front ++ [d]) ++ back)).1.remove_post d.post_id).add_post d).1)
          a b).isSome
        = (getEdge ((addDocumentsSeq (PostGraph.empty T)
          ((front ++ back) ++ [d])).1) a b).isSome) ∧
    (∀ a b k,
      k ∈ ((((addDocumentsSeq (PostGraph.empty T)
          ((front ++ [d]) ++ back)).1.remove_post
            d.post_id).add_post d).1.get_shared_keywords a b)
        ↔ k ∈ ((addDocumentsSeq (PostGraph.empty T)
          ((front ++ back) ++ [d])).1.get_shared_keywords a b)) := by
  have hids1 : ((front.map (fun p => p.post_id))
      ++ (d.post_id :: back.map (fun p => p.post_id))).Nodup := by
    have h0 := hids
    simp only [List.map_append, List.map_cons, List.map_nil,
      List.append_assoc, List.singleton_append, List.cons_append,
      List.nil_append] at h0
    exact h0
  obtain ⟨hfn, hcb, hdisj⟩ := List.nodup_append.mp hids1
  rw [List.nodup_cons] at hcb
  have hfd : ∀ p ∈ front, p.post_id ≠ d.post_id := by
    intro p hp he
    exact hdisj (List.mem_map_of_mem _ hp)
      (by rw [he]; exact List.mem_cons_self _ _)
  have hbd : ∀ p ∈ back, p.post_id ≠ d.post_id := by
    intro p hp he
    exact hcb.1 (by rw [← he]; exact List.mem_map_of_mem _ hp)
  have hperm : List.Perm ((front ++ [d]) ++ back) ((front ++ back) ++ [d]) := by
    rw [List.append_assoc, List.append_assoc]
    exact List.Perm.append_left front List.perm_append_comm
  have hids2 : (((front ++ back) ++ [d]).map (fun p => p.post_id)).Nodup :=
    ((hperm.map (fun p => p.post_id)).nodup_iff).mp hids
  have hfresh : ∀ (l : List OSINTPost),
      ∀ p ∈ l, dGet (PostGraph.empty T).nodes p.post_id = none := by
    intro l p _
    rfl
  have hn1 : (addDocumentsSeq (PostGraph.empty T)
      ((front ++ [d]) ++ back)).1.nodes
      = ((front ++ [d]) ++ back).map (fun p => (p.post_id, p)) := by
    rw [addDocumentsSeq_nodes _ _ (hfresh _) hids]
    rfl
  have hn2 : (addDocumentsSeq (PostGraph.empty T)
      ((front ++ back) ++ [d])).1.nodes
      = ((front ++ back) ++ [d]).map (fun p => (p.post_id, p)) := by
    rw [addDocumentsSeq_nodes _ _ (hfresh _) hids2]
    rfl
  have hkeys1 : (dKeys (((front ++ [d]) ++ back).map
      (fun p => (p.post_id, p)))).Nodup := by
    rw [dKeys_map_pair]
    exact hids
  have hpost : dGet (addDocumentsSeq (PostGraph.empty T)
      ((front ++ [d]) ++ back)).1.nodes d.post_id = some d := by
    rw [hn1]
    exact dGet_of_mem_of_nodup hkeys1
      (List.mem_map_of_mem _ (List.mem_append.mpr
        (Or.inl (List.mem_append.mpr (Or.inr (List.mem_cons_self _ _))))))
  have hrm : ((addDocumentsSeq (PostGraph.empty T)
      ((front ++ [d]) ++ back)).1.remove_post d.post_id).nodes
      = (front ++ back).map (fun p => (p.post_id, p)) := by
    rw [remove_post_nodes, hn1, dErase_map_pair_middle front back d hfd hbd]
  have hdk : d.post_id ∉ dKeys ((front ++ back).map
      (fun p => (p.post_id, p))) := by
    rw [dKeys_map_pair]
    intro hmem
    rw [List.map_append] at hmem
    rcases List.mem_append.mp hmem with hm | hm
    · obtain ⟨p, hp, he⟩ := List.mem_map.mp hm
      exact hfd p hp he
    · obtain ⟨p, hp, he⟩ := List.mem_map.mp hm
      exact hbd p hp he
  have hnew2 : dGet ((addDocumentsSeq (PostGraph.empty T)
      ((front ++ [d]) ++ back)).1.remove_post d.post_id).nodes
      d.post_id = none := by
    rw [hrm]
    exact (dGet_eq_none_iff _ _).mpr hdk
  have hn3 : ((((addDocumentsSeq (PostGraph.empty T)
      ((front ++ [d]) ++ back)).1.remove_post d.post_id).add_post d).1).nodes
      = ((front ++ back) ++ [d]).map (fun p => (p.post_id, p)) := by
    rw [add_post_nodes_of_new hnew2, hrm, dSet_of_not_mem _ hdk]
    show List.map (fun p => (p.post_id, p)) (front ++ back)
        ++ List.map (fun p => (p.post_id, p)) [d]
      = List.map (fun p => (p.post_id, p)) ((front ++ back) ++ [d])
    rw [← List.map_append]
  have hT : ((((addDocumentsSeq (PostGraph.empty T)
      ((front ++ [d]) ++ back)).1.remove_post
        d.post_id).add_post d).1).min_shared_keywords
      = (addDocumentsSeq (PostGraph.empty T)
        ((front ++ back) ++ [d])).1.min_shared_keywords := by
    rw [add_post_T, remove_post_T, addDocumentsSeq_T, addDocumentsSeq_T]
  have wf3 : WF ((((addDocumentsSeq (PostGraph.empty T)
      ((front ++ [d]) ++ back)).1.remove_post d.post_id).add_post d).1) :=
    reachable_wf (Reachable.add _ d (Reachable.remove _ d.post_id
      (reachable_addDocumentsSeq _ _ (Reachable.init T))))
  have wfh : WF ((addDocumentsSeq (PostGraph.empty T)
      ((front ++ back) ++ [d])).1) :=
    reachable_wf (reachable_addDocumentsSeq _ _ (Reachable.init T))
  refine ⟨by rw [hn3, hn2], ?_, ?_⟩
  · intro a b
    apply bool_eq_of_iff
    rw [wf_isSome_iff wf3 a b, wf_isSome_iff wfh a b, hn3, hn2, hT]
  · intro a b k
    rw [wf_shared_mem wf3 a b k, wf_shared_mem wfh a b k, hn3, hn2, hT]

/-- Witness for C3 on the spec scenario documents (T = 2), removing and
re-inserting the middle document B. -/
theorem claim_C3_witness :
    ((((addDocumentsSeq (PostGraph.empty 2)
        (([mkPost "A" ["mil", "drone", "night"]] ++ [mkPost "B" ["mil", "drone"]])
          ++ [mkPost "C" ["drone", "night", "storm"]])).1.remove_post
        (mkPost "B" ["mil", "drone"]).post_id).add_post
        (mkPost "B" ["mil", "drone"])).1.nodes
      = (addDocumentsSeq (PostGraph.empty 2)
        (([mkPost "A" ["mil", "drone", "night"]]
          ++ [mkPost "C" ["drone", "night", "storm"]])
          ++ [mkPost "B" ["mil", "drone"]])).1.nodes) :=
  (claim_C3_remove_reinsert 2 [mkPost "A" ["mil", "drone", "night"]]
    [mkPost "C" ["drone", "night", "storm"]] (mkPost "B" ["mil", "drone"])
    (by decide)).1

/-! ### BFS and connected components -/

theorem wf_inner_keys {g : PostGraph} (hwf : WF g) (a b : String)
    (hb : b ∈ dKeys (dGetD g.adj a [])) : b ∈ dKeys g.nodes := by
  rcases he : dGet (dGetD g.adj a []) b with _ | e
  · exact absurd hb ((dGet_eq_none_iff _ _).mp he)
  · have hes : getEdge g a b = some e := he
    obtain ⟨-, -, -, pa, pb, hpa, hpb, -, -⟩ := hwf.edge_sound a b e hes
    by_contra hmem
    have hnone := (dGet_eq_none_iff g.nodes b).mpr hmem
    rw [hpb] at hnone
    exact Option.noConfusion hnone

theorem bfsLoop_spec {g : PostGraph} (hwf : WF g) :
    ∀ (fuel : Nat) (v c q : List String),
      (∀ x ∈ q, x ∈ dKeys g.nodes) →
      ∃ dlt : List String, bfsLoop g fuel v c q = (v ++ dlt, c ++ dlt) ∧
        dlt.Nodup ∧ (∀ x ∈ dlt, x ∉ v) ∧ (∀ x ∈ dlt, x ∈ dKeys g.nodes) := by
  intro fuel
  induction fuel with
  | zero =>
    intro v c q _
    exact ⟨[], by simp [bfsLoop], by simp, by simp, by simp⟩
  | succ f ih =>
    intro v c q hq
    rcases q with _ | ⟨current, rest⟩
    · exact ⟨[], by simp [bfsLoop], by simp, by simp, by simp⟩
    · by_cases hv : current ∈ v
      · obtain ⟨dlt, h1, h2, h3, h4⟩ :=
          ih v c rest (fun x hx => hq x (List.mem_cons_of_mem _ hx))
        refine ⟨dlt, ?_, h2, h3, h4⟩
        rw [bfsLoop, if_pos hv]
        exact h1
      · have hstep : bfsLoop g (f + 1) v c (current :: rest)
            = bfsLoop g f (v ++ [current]) (c ++ [current])
              (rest ++ (dKeys (dGetD g.adj current [])).filter
                (fun nb => decide (nb ∉ v ++ [current]))) := by
          rw [bfsLoop, if_neg hv]
        have hq' : ∀ x ∈ rest ++ (dKeys (dGetD g.adj current [])).filter
            (fun nb => decide (nb ∉ v ++ [current])), x ∈ dKeys g.nodes := by
          intro x hx
          rcases List.mem_append.mp hx with hx | hx
          · exact hq x (List.mem_cons_of_mem _ hx)
          · exact wf_inner_keys hwf current x (List.mem_of_mem_filter hx)
        obtain ⟨dlt, h1, h2, h3, h4⟩ :=
          ih (v ++ [current]) (c ++ [current]) _ hq'
        refine ⟨current :: dlt, ?_, ?_, ?_, ?_⟩
        · rw [hstep, h1, List.append_assoc, List.append_assoc]
          rfl
        · rw [List.nodup_cons]
          refine ⟨?_, h2⟩
          intro hc
          exact h3 current hc (List.mem_append.mpr
            (Or.inr (List.mem_cons_self _ _)))
        · intro x hx
          rcases List.mem_cons.mp hx with hxe | hxd
          · rw [hxe]
            exact hv
          · intro hxv
            exact h3 x hxd (List.mem_append.mpr (Or.inl hxv))
        · intro x hx
          rcases List.mem_cons.mp hx with hxe | hxd
          · rw [hxe]
            exact hq current (List.mem_cons_self _ _)
          · exact h4 x hxd

theorem firstMemPos_append_cons (fore : List String) (n : String)
    (rest : List String) (c : List String)
    (hf : ∀ x ∈ fore, x ∉ c) (hn : n ∈ c) :
    firstMemPos (fore ++ n :: rest) c = fore.length := by
  induction fore with
  | nil => simp [firstMemPos, hn]
  | cons y ys ih =>
    rw [List.cons_append, firstMemPos,
      if_neg (hf y (List.mem_cons_self _ _)),
      ih (fun x hx => hf x (List.mem_cons_of_mem _ hx))]
    rfl

theorem ccFold_spec {g : PostGraph} (hwf : WF g) :
    ∀ (suffix fore v : List String) (comps : List (List String)),
      dKeys g.nodes = fore ++ suffix →
      (∀ x ∈ fore, x ∈ v) →
      (∀ x ∈ v, x ∈ dKeys g.nodes) →
      v.Nodup →
      v = comps.flatten →
      (∀ c ∈ comps, c ≠ []) →
      (∀ c ∈ comps, firstMemPos (dKeys g.nodes) c < fore.length) →
      comps.Pairwise (fun c1 c2 =>
        firstMemPos (dKeys g.nodes) c1 < firstMemPos (dKeys g.nodes) c2) →
      (suffix.foldl (ccStep g) (v, comps)).1
          = (suffix.foldl (ccStep g) (v, comps)).2.flatten ∧
        (suffix.foldl (ccStep g) (v, comps)).1.Nodup ∧
        (∀ x ∈ (suffix.foldl (ccStep g) (v, comps)).1, x ∈ dKeys g.nodes) ∧
        (∀ x ∈ fore ++ suffix, x ∈ (suffix.foldl (ccStep g) (v, comps)).1) ∧
        (∀ c ∈ (suffix.foldl (ccStep g) (v, comps)).2, c ≠ []) ∧
        (suffix.foldl (ccStep g) (v, comps)).2.Pairwise (fun c1 c2 =>
          firstMemPos (dKeys g.nodes) c1 < firstMemPos (dKeys g.nodes) c2) := by
  intro suffix
  induction suffix with
  | nil =>
    intro fore v comps hK hfv hvK hnd hflat hne hbound hpw
    refine ⟨hflat, hnd, hvK, ?_, hne, hpw⟩
    intro x hx
    rw [List.append_nil] at hx
    exact hfv x hx
  | cons n rest ih =>
    intro fore v comps hK hfv hvK hnd hflat hne hbound hpw
    have hK' : dKeys g.nodes = (fore ++ [n]) ++ rest := by
      rw [hK, List.append_assoc]
      rfl
    have hlen1 : (fore ++ [n]).length = fore.length + 1 := by
      rw [List.length_append]
      rfl
    by_cases hnv : n ∈ v
    · have hcs : ccStep g (v, comps) n = (v, comps) := by
        simp only [ccStep]
        rw [if_pos hnv]
      rw [List.foldl_cons, hcs]
      have hfv' : ∀ x ∈ fore ++ [n], x ∈ v := by
        intro x hx
        rcases List.mem_append.mp hx with hx | hx
        · exact hfv x hx
        · rw [List.mem_singleton] at hx
          rw [hx]
          exact hnv
      have hbound' : ∀ c ∈ comps,
          firstMemPos (dKeys g.nodes) c < (fore ++ [n]).length := by
        intro c hc
        rw [hlen1]
        have := hbound c hc
        omega
      obtain ⟨c1, c2, c3, c4, c5, c6⟩ :=
        ih (fore ++ [n]) v comps hK' hfv' hvK hnd hflat hne hbound' hpw
      refine ⟨c1, c2, c3, ?_, c5, c6⟩
      intro x hx
      apply c4
      rw [List.append_assoc]
      exact hx
    · obtain ⟨f', hfe⟩ : ∃ f', ccFuel g = f' + 1 :=
        ⟨g.nodes.length + totalAdjSize g, by rw [ccFuel]; omega⟩
      have hnK : n ∈ dKeys g.nodes := by
        rw [hK]
        exact List.mem_append.mpr (Or.inr (List.mem_cons_self _ _))
      have hstep : bfsLoop g (f' + 1) v [] [n]
          = bfsLoop g f' (v ++ [n]) [n]
            ((dKeys (dGetD g.adj n [])).filter
              (fun nb => decide (nb ∉ v ++ [n]))) := by
        rw [bfsLoop, if_neg hnv]
        rfl
      have hq' : ∀ x ∈ (dKeys (dGetD g.adj n [])).filter
          (fun nb => decide (nb ∉ v ++ [n])), x ∈ dKeys g.nodes :=
        fun x hx => wf_inner_keys hwf n x (List.mem_of_mem_filter hx)
      obtain ⟨dlt, hb1, hb2, hb3, hb4⟩ :=
        bfsLoop_spec hwf f' (v ++ [n]) [n] _ hq'
      have heq : bfsLoop g (ccFuel g) v [] [n]
          = ((v ++ [n]) ++ dlt, n :: dlt) := by
        rw [hfe, hstep]
        exact hb1
      have hcs : ccStep g (v, comps) n
          = ((v ++ [n]) ++ dlt, comps ++ [n :: dlt]) := by
        simp only [ccStep]
        rw [if_neg hnv]
        show ((bfsLoop g (ccFuel g) v [] [n]).1,
          comps ++ [(bfsLoop g (ccFuel g) v [] [n]).2]) = _
        rw [heq]
      have hfv' : ∀ x ∈ fore ++ [n], x ∈ (v ++ [n]) ++ dlt := by
        intro x hx
        rcases List.mem_append.mp hx with hx | hx
        · exact List.mem_append.mpr (Or.inl
            (List.mem_append.mpr (Or.inl (hfv x hx))))
        · exact List.mem_append.mpr (Or.inl (List.mem_append.mpr (Or.inr hx)))
      have hvK' : ∀ x ∈ (v ++ [n]) ++ dlt, x ∈ dKeys g.nodes := by
        intro x hx
        rcases List.mem_append.mp hx with hx | hx
        · rcases List.mem_append.mp hx with hx | hx
          · exact hvK x hx
          · rw [List.mem_singleton] at hx
            rw [hx]
            exact hnK
        · exact hb4 x hx
      have hvn : (v ++ [n]).Nodup := by
        rw [List.nodup_append]
        refine ⟨hnd, List.nodup_singleton n, ?_⟩
        intro a ha ha'
        rw [List.mem_singleton] at ha'
        rw [ha'] at ha
        exact hnv ha
      have hnd' : ((v ++ [n]) ++ dlt).Nodup := by
        rw [List.nodup_append]
        exact ⟨hvn, hb2, fun a ha ha' => hb3 a ha' ha⟩
      have hflat' : (v ++ [n]) ++ dlt = (comps ++ [n :: dlt]).flatten := by
        rw [List.flatten_append, ← hflat, List.append_assoc]
        simp
      have hne' : ∀ c ∈ comps ++ [n :: dlt], c ≠ [] := by
        intro c hc
        rcases List.mem_append.mp hc with hc | hc
        · exact hne c hc
        · rw [List.mem_singleton] at hc
          rw [hc]
          exact List.cons_ne_nil _ _
      have hfmp : firstMemPos (dKeys g.nodes) (n :: dlt) = fore.length := by
        rw [hK]
        apply firstMemPos_append_cons
        · intro x hx hxc
          have hxv : x ∈ v := hfv x hx
          rcases List.mem_cons.mp hxc with hxe | hxd
          · rw [hxe] at hxv
            exact hnv hxv
          · exact hb3 x hxd (List.mem_append.mpr (Or.inl hxv))
        · exact List.mem_cons_self _ _
      have hbound' : ∀ c ∈ comps ++ [n :: dlt],
          firstMemPos (dKeys g.nodes) c < (fore ++ [n]).length := by
        intro c hc
        rw [hlen1]
        rcases List.mem_append.mp hc with hc | hc
        · have := hbound c hc
          omega
        · rw [List.mem_singleton] at hc
          rw [hc, hfmp]
          omega
      have hpw' : (comps ++ [n :: dlt]).Pairwise (fun c1 c2 =>
          firstMemPos (dKeys g.nodes) c1 < firstMemPos (dKeys g.nodes) c2) := by
        rw [List.pairwise_append]
        refine ⟨hpw, by simp, ?_⟩
        intro c1 hc1 c2 hc2
        rw [List.mem_singleton] at hc2
        rw [hc2, hfmp]
        exact hbound c1 hc1
      rw [List.foldl_cons, hcs]
      obtain ⟨c1, c2, c3, c4, c5, c6⟩ :=
        ih (fore ++ [n]) ((v ++ [n]) ++ dlt) (comps ++ [n :: dlt])
          hK' hfv' hvK' hnd' hflat' hne' hbound' hpw'
      refine ⟨c1, c2, c3, ?_, c5, c6⟩
      intro x hx
      apply c4
      rw [List.append_assoc]
      exact hx

/-- C4: `get_connected_components` partitions the current node table
exactly — the returned components are nonempty, pairwise account for
every current node id exactly once, and no other ids appear — and the
components are ordered by size descending with ties broken by the node
insertion rank of each component's earliest-inserted member. -/
theorem claim_C4_components_partition_sorted (g : PostGraph)
    (hg : Reachable g) :
    g.get_connected_components.flatten.Nodup ∧
    (∀ x, x ∈ g.get_connected_components.flatten ↔ x ∈ dKeys g.nodes) ∧
    (∀ c ∈ g.get_connected_components, c ≠ []) ∧
    g.get_connected_components.Pairwise (fun c1 c2 =>
      c2.length ≤ c1.length ∧ (c1.length = c2.length →
        firstMemPos (dKeys g.nodes) c1 < firstMemPos (dKeys g.nodes) c2)) := by
  have hwf := reachable_wf hg
  obtain ⟨c1, c2, c3, c4, c5, c6⟩ := ccFold_spec hwf (dKeys g.nodes) [] [] []
    rfl (by simp) (by simp) List.nodup_nil rfl (by simp) (by simp)
    List.Pairwise.nil
  have hperm : List.Perm g.get_connected_components
      (((dKeys g.nodes).foldl (ccStep g) ([], [])).2) := by
    rw [PostGraph.get_connected_components]
    exact sortByKeyDesc_perm _ _
  have hpf : List.Perm g.get_connected_components.flatten
      ((((dKeys g.nodes).foldl (ccStep g) ([], [])).2).flatten) :=
    hperm.flatten
  refine ⟨?_, ?_, ?_, ?_⟩
  · exact hpf.nodup_iff.mpr (by rw [← c1]; exact c2)
  · intro x
    constructor
    · intro hx
      have hx' := hpf.mem_iff.mp hx
      rw [← c1] at hx'
      exact c3 x hx'
    · intro hx
      have hx' := c4 x hx
      rw [c1] at hx'
      exact hpf.mem_iff.mpr hx'
  · intro c hc
    exact c5 c (hperm.mem_iff.mp hc)
  · rw [PostGraph.get_connected_components]
    exact sortByKeyDesc_pairwise List.length
      (fun c => firstMemPos (dKeys g.nodes) c) _ c6

/-- Witness for C4 on the spec scenario graph (T = 2): the components
cover each node id exactly once. -/
theorem claim_C4_witness :
    (((((PostGraph.empty 2).add_post
        (mkPost "A" ["mil", "drone", "night"])).1.add_post
        (mkPost "B" ["mil", "drone"])).1.add_post
        (mkPost "C" ["drone", "night", "storm"])).1).get_connected_components.flatten.Nodup :=
  (claim_C4_components_partition_sorted _
    (Reachable.add _ _ (Reachable.add _ _ (Reachable.add _ _
      (Reachable.init 2))))).1
